import Mathlib

/-!
# recon-royale-checker: a verification development of `checker.go`

The program reads a list of domains, probes each one against a DNS-over-HTTPS
resolver for six record types, and reports the domains with at least one record.

* Part 1 embeds the resolver client (`queryDNS`) and the per-domain probe loop
  (`checkDomain`).  Everything outside the repository that these functions call
  (`http.NewRequest`, `http.Client.Do`, `ioutil.ReadAll`, `json.Unmarshal`) is
  collected in the environment `Env`, so that every theorem quantifies over every
  behaviour of the network and of the decoder.
* Part 2 embeds the goroutines of `main` as a step relation on an explicit state.
* Part 3 embeds `readDomainsFromFile` and `writeResultsToFile` over a file system.

The definitions come first, the theorems after them.
-/

namespace Checker

/-! ## Part 1: resolver client and probe loop -/

/-- One element of `DNSResponse.Answer`: the anonymous struct with its `data` field. -/
structure DNSAnswer where
  Data : String
  deriving DecidableEq, Repr

/-- The Go type `DNSResponse`. -/
structure DNSResponse where
  Status : Int
  Answer : List DNSAnswer
  deriving DecidableEq, Repr

/-- What `queryDNS` looks at in an `*http.Response`: the status code, and what
`ioutil.ReadAll(resp.Body)` gives (`none` when it returns an error). -/
structure HTTPResponse where
  StatusCode : Int
  Body : Option String
  deriving DecidableEq, Repr

/-- The world `queryDNS` runs in, keyed by the request URL.
* `newRequest url` is `true` when `http.NewRequest("GET", url, nil)` returns no error;
* `clientDo url` is the response of `client.Do(req)`, `none` when it returns an error;
* `unmarshal body` is the `DNSResponse` filled in by `json.Unmarshal`, `none` when it
  returns an error. -/
structure Env where
  newRequest : String → Bool
  clientDo : String → Option HTTPResponse
  unmarshal : String → Option DNSResponse

/-- The package variable `recordTypes`. -/
def recordTypes : List String := ["A", "AAAA", "TXT", "CNAME", "NS", "MX"]

/-- The URL built by `fmt.Sprintf` at the top of `queryDNS`. -/
def queryURL (domain recordType : String) : String :=
  "https://cloudflare-dns.com/dns-query?name=" ++ domain ++ "&type=" ++ recordType

/-- The Go function `queryDNS`: every failure returns the empty string, success
returns the data string of the first answer. -/
def queryDNS (env : Env) (domain recordType : String) : String :=
  let url := queryURL domain recordType
  if env.newRequest url = false then ""
  else
    match env.clientDo url with
    | none => ""
    | some resp =>
      if resp.StatusCode ≠ 200 then ""
      else
        match resp.Body with
        | none => ""
        | some body =>
          match env.unmarshal body with
          | none => ""
          | some dnsResp =>
            if dnsResp.Status ≠ 0 ∨ dnsResp.Answer.length = 0 then ""
            else
              match dnsResp.Answer with
              | [] => ""
              | first :: _ => first.Data

/-- The `for ... range` loop of `checkDomain` over the record types still to probe. -/
def checkDomainLoop (env : Env) (domain : String) : List String → Bool
  | [] => false
  | recordType :: rest =>
    if queryDNS env domain recordType ≠ "" then true
    else checkDomainLoop env domain rest

/-- The Go function `checkDomain`. -/
def checkDomain (env : Env) (domain : String) : Bool :=
  checkDomainLoop env domain recordTypes

/-- The loop of `checkDomain` with the calls to `queryDNS` recorded: the state
threaded through the loop is the list of record types probed so far, in order. -/
def checkDomainLoopLog (env : Env) (domain : String) :
    List String → List String → Bool × List String
  | [], log => (false, log)
  | recordType :: rest, log =>
    if queryDNS env domain recordType ≠ "" then (true, log ++ [recordType])
    else checkDomainLoopLog env domain rest (log ++ [recordType])

/-- The function `checkDomain` with its probe log: the verdict and the record types for
which `queryDNS` was called, in call order. -/
def checkDomainLog (env : Env) (domain : String) : Bool × List String :=
  checkDomainLoopLog env domain recordTypes []

/-- The conditions (a)-(e) under which a probe is a resolver-level success: the
request is built, the call returns a response with status 200 whose body is read and
decoded, the decoded status is zero and there is at least one answer. -/
def ProbeSucceeds (env : Env) (domain recordType : String) : Prop :=
  env.newRequest (queryURL domain recordType) = true ∧
  ∃ resp body dnsResp,
    env.clientDo (queryURL domain recordType) = some resp ∧
    resp.StatusCode = 200 ∧
    resp.Body = some body ∧
    env.unmarshal body = some dnsResp ∧
    dnsResp.Status = 0 ∧
    dnsResp.Answer ≠ []

/-- The failure causes of one probe, as the source lists them: request construction
fails, the network call fails, the status is not 200, the body cannot be read, the
body does not decode, the decoded status is non-zero, or there is no answer. -/
def ProbeFails (env : Env) (domain recordType : String) : Prop :=
  env.newRequest (queryURL domain recordType) = false ∨
  env.clientDo (queryURL domain recordType) = none ∨
  ∃ resp, env.clientDo (queryURL domain recordType) = some resp ∧
    (resp.StatusCode ≠ 200 ∨
     resp.Body = none ∨
     ∃ body, resp.Body = some body ∧
      (env.unmarshal body = none ∨
       ∃ dnsResp, env.unmarshal body = some dnsResp ∧
        (dnsResp.Status ≠ 0 ∨ dnsResp.Answer = [])))

/-- A resolver that answers every query with `{"Status":0,"Answer":[{"data":""}]}`. -/
def emptyDataEnv : Env where
  newRequest := fun _ => true
  clientDo := fun _ =>
    some ⟨200, some "\x7b\"Status\":0,\"Answer\":[\x7b\"data\":\"\"\x7d]\x7d"⟩
  unmarshal := fun body =>
    if body = "\x7b\"Status\":0,\"Answer\":[\x7b\"data\":\"\"\x7d]\x7d" then
      some ⟨0, [⟨""⟩]⟩
    else none

/-- A resolver that has an `A` record for `exists.example` and nothing else: every
other query gets the resolver status 3 (NXDOMAIN) with no answer. -/
def stubEnv : Env where
  newRequest := fun _ => true
  clientDo := fun url =>
    if url = queryURL "exists.example" "A" then some ⟨200, some "found"⟩
    else some ⟨200, some "nxdomain"⟩
  unmarshal := fun body =>
    if body = "found" then some ⟨0, [⟨"93.184.216.34"⟩]⟩
    else if body = "nxdomain" then some ⟨3, []⟩
    else none

/-- A network on which every call of `client.Do` fails. -/
def downEnv : Env where
  newRequest := fun _ => true
  clientDo := fun _ => none
  unmarshal := fun _ => none

/-- A resolver for which the `A` probe of `example.com` (and every other query) fails at
the network layer, and the `AAAA` probe of `example.com` has a record. -/
def aaaaEnv : Env where
  newRequest := fun _ => true
  clientDo := fun url =>
    if url = queryURL "example.com" "AAAA" then some ⟨200, some "hit"⟩ else none
  unmarshal := fun _ => some ⟨0, [⟨"2606:4700::1111"⟩]⟩

/-- The resolver that has a record for `domain` exactly under the record types chosen
by `assign`, and fails at the network layer on every other query. -/
def assignEnv (domain : String) (assign : String → Bool) : Env where
  newRequest := fun _ => true
  clientDo := fun url =>
    if (recordTypes.filter assign).any (fun rt => url == queryURL domain rt) then
      some ⟨200, some "hit"⟩
    else none
  unmarshal := fun _ => some ⟨0, [⟨"record"⟩]⟩

/-- A resolver that has a record for every query. -/
def openEnv : Env where
  newRequest := fun _ => true
  clientDo := fun _ => some ⟨200, some "hit"⟩
  unmarshal := fun _ => some ⟨0, [⟨"record"⟩]⟩

/-- The resolver `env` with a network failure on each of the six probes of `D1`. -/
def failOn (D1 : String) (env : Env) : Env :=
  { env with
    clientDo := fun url =>
      if recordTypes.any (fun rt => url == queryURL D1 rt) then none
      else env.clientDo url }

/-! ## Part 2: the dispatcher in `main`

`main` starts one goroutine per domain, one more goroutine that waits for the
`WaitGroup` and closes the `results` channel, and then collects from the channel.
The embedding is an interleaving semantics: a state holds the program counter of
every goroutine, the `WaitGroup` counter and the channel; `step` runs one atomic
action of the goroutine chosen by the scheduler and is `none` when that goroutine
does not exist, has exited or is blocked.  A run-time panic (send on a closed
channel, close of a closed channel, negative `WaitGroup` counter) is recorded in the
state and stops the program. -/

/-- Program counter of the goroutine `func(domain string)` started for one domain:
before the call of `checkDomain`, before `results <- domain`, before the deferred
`wg.Done()`, and after it. -/
inductive WorkerPc where
  | check
  | send
  | deferred
  | exited
  deriving DecidableEq, Repr

/-- One per-domain goroutine: its argument `domain` and its program counter. -/
structure Worker where
  domain : String
  pc : WorkerPc
  deriving DecidableEq, Repr

/-- Program counter of the closing goroutine: at `wg.Wait()`, at `close(results)`,
and after it. -/
inductive CloserPc where
  | wait
  | close
  | exited
  deriving DecidableEq, Repr

/-- Program counter of `main` from line 47 on: in the spawning loop with the domains
still to range over (once the list is empty the next action is `go func() {...}()` of
the closing goroutine), in the collecting loop `for res := range results`, and past
it, where `output` is handed to `writeResultsToFile` or printed. -/
inductive MainPc where
  | spawn (rest : List String)
  | collect
  | emit
  deriving DecidableEq, Repr

/-- The run-time panics of the primitives `main` uses. -/
inductive Panic where
  | sendOnClosedChannel
  | closeOfClosedChannel
  | negativeWaitGroupCounter
  deriving DecidableEq, Repr

/-- The buffered channel `results`: queued values (oldest first), capacity, closed flag. -/
structure Chan where
  buf : List String
  cap : Nat
  closed : Bool
  deriving DecidableEq, Repr

/-- The state of `main` and its goroutines. `closer` is `none` until the closing
goroutine has been started; `wg` is the `WaitGroup` counter. -/
structure State where
  mainPc : MainPc
  workers : List Worker
  closer : Option CloserPc
  wg : Nat
  results : Chan
  output : List String
  panic : Option Panic
  deriving DecidableEq, Repr

/-- The goroutines the scheduler can pick. -/
inductive Tid where
  | main
  | worker (i : Nat)
  | closer
  deriving DecidableEq, Repr

/-- The state at line 47: `wg` is zero, `results` is `make(chan string, len(domains))`,
`output` is nil. -/
def initState (domains : List String) : State where
  mainPc := .spawn domains
  workers := []
  closer := none
  wg := 0
  results := ⟨[], domains.length, false⟩
  output := []
  panic := none

/-- One atomic action of the per-domain goroutine `i` whose state is `w`. -/
def stepWorker (env : Env) (s : State) (i : Nat) (w : Worker) : Option State :=
  match w.pc with
  | .check =>
    -- found := checkDomain(domain); if found { ... }
    if checkDomain env w.domain = true then
      some { s with workers := s.workers.set i { w with pc := .send } }
    else
      some { s with workers := s.workers.set i { w with pc := .deferred } }
  | .send =>
    -- results <- domain
    if s.results.closed = true then
      some { s with panic := some .sendOnClosedChannel }
    else if s.results.buf.length < s.results.cap then
      some { s with
        results := { s.results with buf := s.results.buf ++ [w.domain] }
        workers := s.workers.set i { w with pc := .deferred } }
    else none
  | .deferred =>
    -- defer wg.Done()
    if s.wg = 0 then
      some { s with panic := some .negativeWaitGroupCounter }
    else
      some { s with wg := s.wg - 1, workers := s.workers.set i { w with pc := .exited } }
  | .exited => none

/-- One atomic action of `main`. -/
def stepMain (s : State) : Option State :=
  match s.mainPc with
  | .spawn (domain :: rest) =>
    -- wg.Add(1); go func(domain string) {...}(domain)
    some { s with
      wg := s.wg + 1
      workers := s.workers ++ [⟨domain, .check⟩]
      mainPc := .spawn rest }
  | .spawn [] =>
    -- go func() { wg.Wait(); close(results) }()
    some { s with closer := some .wait, mainPc := .collect }
  | .collect =>
    -- for res := range results { output = append(output, res) }
    match s.results.buf with
    | res :: buf =>
      some { s with results := { s.results with buf := buf }, output := s.output ++ [res] }
    | [] =>
      if s.results.closed = true then some { s with mainPc := .emit } else none
  | .emit => none

/-- One atomic action of the closing goroutine. -/
def stepCloser (s : State) : Option State :=
  match s.closer with
  | none => none
  | some .wait =>
    -- wg.Wait()
    if s.wg = 0 then some { s with closer := some .close } else none
  | some .close =>
    -- close(results)
    if s.results.closed = true then
      some { s with panic := some .closeOfClosedChannel }
    else
      some { s with results := { s.results with closed := true }, closer := some .exited }
  | some .exited => none

/-- One scheduling step: the goroutine `t` performs its next atomic action. -/
def step (env : Env) (t : Tid) (s : State) : Option State :=
  match s.panic with
  | some _ => none
  | none =>
    match t with
    | .main => stepMain s
    | .worker i =>
      match s.workers[i]? with
      | none => none
      | some w => stepWorker env s i w
    | .closer => stepCloser s

/-- Run a schedule from a state; `none` when the schedule picks a goroutine that
cannot move. -/
def runFrom (env : Env) (s : State) : List Tid → Option State
  | [] => some s
  | t :: sched =>
    match step env t s with
    | none => none
    | some s' => runFrom env s' sched

/-- Run a schedule of `main` on the domain list read from the input file. -/
def run (env : Env) (domains : List String) (sched : List Tid) : Option State :=
  runFrom env (initState domains) sched

/-- The domains the spawning loop has not reached yet. -/
def MainPc.rest : MainPc → List String
  | .spawn rest => rest
  | _ => []

/-- A goroutine that has not yet run its deferred `wg.Done()`. -/
def WorkerPc.live : WorkerPc → Bool
  | .exited => false
  | _ => true

/-- A per-domain goroutine that is past the `if found { results <- domain }` statement
with a true verdict, that is, one that has sent its domain. -/
def Worker.delivered (env : Env) (w : Worker) : Bool :=
  match w.pc with
  | .deferred => checkDomain env w.domain
  | .exited => checkDomain env w.domain
  | _ => false

/-- The invariant of the dispatcher: it holds initially and is kept by every step. -/
structure Inv (env : Env) (domains : List String) (s : State) : Prop where
  noPanic : s.panic = none
  spawned : s.workers.map (fun w => w.domain) ++ s.mainPc.rest = domains
  capacity : s.results.cap = domains.length
  counter : s.wg = s.workers.countP (fun w => w.pc.live)
  closerStarted : s.closer = none ↔ ∃ rest, s.mainPc = .spawn rest
  waited : s.closer = some .close ∨ s.closer = some .exited → s.wg = 0
  closedIff : s.results.closed = true ↔ s.closer = some .exited
  sendTrue : ∀ w ∈ s.workers, w.pc = .send → checkDomain env w.domain = true
  queued : (s.output ++ s.results.buf).Perm
    ((s.workers.filter (fun w => w.delivered env)).map (fun w => w.domain))
  drained : s.mainPc = .emit → s.results.closed = true ∧ s.results.buf = []

/-- The final state of `main` on two domains with the given output: every goroutine
has exited, the channel is closed and empty. -/
def finalState (d₀ d₁ : String) (output : List String) : State where
  mainPc := .emit
  workers := [⟨d₀, .exited⟩, ⟨d₁, .exited⟩]
  closer := some .exited
  wg := 0
  results := ⟨[], 2, true⟩
  output := output
  panic := none

/-- A schedule for two domains in which both verdicts are true: `main` starts the
three goroutines, the second worker sends before the first, the closing goroutine
closes the channel and `main` drains it. -/
def bothFoundSchedule : List Tid :=
  [.main, .main, .main, .worker 1, .worker 0, .worker 1, .worker 0, .worker 1, .worker 0,
   .closer, .closer, .main, .main, .main]

/-- A schedule for two domains in which only the first verdict is true. -/
def firstFoundSchedule : List Tid :=
  [.main, .main, .worker 0, .main, .worker 1, .worker 0, .worker 1, .worker 0,
   .closer, .closer, .main, .main]

/-- Steps a worker still has to take, counting a queued value it will produce. -/
def WorkerPc.weight : WorkerPc → Nat
  | .check => 4
  | .send => 3
  | .deferred => 1
  | .exited => 0

/-- An upper bound on the number of steps left from a state. -/
def State.measure (s : State) : Nat :=
  (match s.mainPc with
    | .spawn rest => 5 * rest.length + 4
    | .collect => 1
    | .emit => 0) +
  (s.workers.map (fun w => w.pc.weight)).sum +
  (match s.closer with
    | none => 0
    | some .wait => 2
    | some .close => 1
    | some .exited => 0) +
  s.results.buf.length

/-! ## Part 3: the domain source and the result sink

`readDomainsFromFile` and `writeResultsToFile` are embedded over a file system that
maps a path to the text of the file and says how many bytes a created file accepts.
A file is a list of Unicode characters (the text of a UTF-8 file); `bufio.Scanner`
with its default split function `bufio.ScanLines`, `strings.TrimSpace` and
`bufio.Writer` are embedded from their documented behaviour. -/

/-- The predicate `unicode.IsSpace`: the code points with the White_Space property. -/
def isSpace (c : Char) : Bool :=
  let r := c.toNat
  (0x09 ≤ r && r ≤ 0x0d) || r == 0x20 || r == 0x85 || r == 0xa0 || r == 0x1680 ||
  (0x2000 ≤ r && r ≤ 0x200a) || r == 0x2028 || r == 0x2029 || r == 0x202f ||
  r == 0x205f || r == 0x3000

/-- The function `strings.TrimSpace`: leading and trailing white space removed. -/
def TrimSpace (s : List Char) : List Char :=
  (s.dropWhile isSpace).rdropWhile isSpace

/-- The helper `dropCR` of `bufio.ScanLines`: one trailing carriage return removed. -/
def dropCR (data : List Char) : List Char :=
  if data.getLast? = some '\r' then data.dropLast else data

/-- Length in bytes of the UTF-8 encoding. -/
def byteLen (data : List Char) : Nat :=
  (data.map Char.utf8Size).sum

/-- The constant `bufio.MaxScanTokenSize`: a scanner with the default buffer gives up
with `bufio.ErrTooLong` when this many bytes hold no complete line. -/
def maxScanTokenSize : Nat := 64 * 1024

/-- The errors of the two functions. -/
inductive IOError where
  | openFailed
  | createFailed
  | tokenTooLong
  | writeFailed
  deriving DecidableEq, Repr

/-- The result of a function returning `([]string, error)`. -/
inductive ReadResult where
  | ok (domains : List String)
  | err (e : IOError)
  deriving DecidableEq, Repr

/-- The tokens `scanner.Scan()` / `scanner.Text()` deliver for the unread input
`data`, where `cur` is the part of the current line already consumed: a line ends at
`'\n'`, loses one trailing `'\r'`, a last line without `'\n'` is delivered when it is
not empty, and a line of `maxScanTokenSize` bytes or more stops the scan with
`bufio.ErrTooLong`. -/
def scanLines (cur : List Char) : List Char → Except IOError (List (List Char))
  | [] =>
    if cur = [] then .ok []
    else if maxScanTokenSize ≤ byteLen cur then .error .tokenTooLong
    else .ok [dropCR cur]
  | c :: data =>
    if c = '\n' then
      if maxScanTokenSize ≤ byteLen cur then .error .tokenTooLong
      else
        match scanLines [] data with
        | .error e => .error e
        | .ok tokens => .ok (dropCR cur :: tokens)
    else scanLines (cur ++ [c]) data

/-- The body of the scanning loop of `readDomainsFromFile` over the scanned tokens:
trim, and append when the trimmed line is not empty. -/
def appendDomains : List (List Char) → List String
  | [] => []
  | text :: rest =>
    let line := TrimSpace text
    if line ≠ [] then String.mk line :: appendDomains rest
    else appendDomains rest

/-- The files `os.Open` can open, with their text; the paths `os.Create` can create
or truncate; and for a created file the number of bytes the device takes before a
write to it fails (`none` when there is no such limit; `some 0` for a full disk or
`/dev/full`). -/
structure FileSystem where
  readFile : String → Option String
  canCreate : String → Bool
  space : String → Option Nat

/-- The Go function `readDomainsFromFile`. -/
def readDomainsFromFile (fs : FileSystem) (filePath : String) : ReadResult :=
  match fs.readFile filePath with
  | none => .err .openFailed
  | some content =>
    match scanLines [] content.data with
    | .error e => .err e
    | .ok tokens => .ok (appendDomains tokens)

/-- The text `writeResultsToFile` hands to its `bufio.Writer`: `result + "\n"` for
each result in turn. -/
def writtenText (results : List String) : String :=
  results.foldl (fun text result => text ++ (result ++ "\n")) ""

/-- The constant `defaultBufSize` of package `bufio`: the buffer of `bufio.NewWriter`. -/
def defaultBufSize : Nat := 4096

/-- Whether the device takes the first `upTo` bytes of the file. -/
def fileAccepts (space : Option Nat) (upTo : Nat) : Bool :=
  match space with
  | none => true
  | some room => decide (upTo ≤ room)

/-- The `bufio.Writer` on the created file: the text passed to `WriteString` so far,
how many bytes of it the file has taken (the rest is in the buffer), and the sticky
error `b.err`. -/
structure Writer where
  text : String
  onDisk : Nat
  err : Option IOError
  deriving DecidableEq, Repr

/-- The method `(*bufio.Writer).WriteString`: the string goes into the buffer; while
more than a buffer is pending, a full buffer of `defaultBufSize` bytes is written to
the file, and the call returns the error of a write the device refuses.  (A later
`bufio` hands a long string to the file in one piece when the buffer is empty; that
changes which call reports a refused write, not whether one does.) -/
def Writer.WriteString (space : Option Nat) (b : Writer) (s : String) : Writer :=
  let pending := byteLen (b.text ++ s).data - b.onDisk
  if pending ≤ defaultBufSize then { b with text := b.text ++ s }
  else
    let flushed := b.onDisk + defaultBufSize * ((pending - 1) / defaultBufSize)
    if fileAccepts space flushed = true then { b with text := b.text ++ s, onDisk := flushed }
    else
      { text := b.text ++ s
        onDisk :=
          match space with
          | none => b.onDisk
          | some room => b.onDisk + defaultBufSize * ((room - b.onDisk) / defaultBufSize)
        err := some .writeFailed }

/-- The method `(*bufio.Writer).Flush`: nothing to do after an error or with an empty
buffer; otherwise the buffer is written to the file, with an error when the device
refuses it. -/
def Writer.Flush (space : Option Nat) (b : Writer) : Writer :=
  match b.err with
  | some _ => b
  | none =>
    if byteLen b.text.data - b.onDisk = 0 then b
    else if fileAccepts space (byteLen b.text.data) = true then
      { b with onDisk := byteLen b.text.data }
    else { b with err := some .writeFailed }

/-- The loop of `writeResultsToFile`: `writer.WriteString(result + "\n")` for each
result, left at the first error. -/
def writeLoop (space : Option Nat) : List String → Writer → Writer
  | [], b => b
  | result :: rest, b =>
    let b' := b.WriteString space (result ++ "\n")
    match b'.err with
    | some _ => b'
    | none => writeLoop space rest b'

/-- The longest run of whole characters at the start of a text that fits in `n` bytes. -/
def takeBytes : Nat → List Char → List Char
  | _, [] => []
  | n, c :: cs => if c.utf8Size ≤ n then c :: takeBytes (n - c.utf8Size) cs else []

/-- What the file holds: the part of the writer's text that the file has taken. -/
def Writer.fileText (b : Writer) : String :=
  String.mk (takeBytes b.onDisk b.text.data)

/-- The file system after `filePath` has been created with the given text. -/
def FileSystem.withFile (fs : FileSystem) (filePath text : String) : FileSystem :=
  { fs with readFile := fun path => if path = filePath then some text else fs.readFile path }

/-- The Go function `writeResultsToFile`: the returned error (`none` for `nil`) and the
file system afterwards.  The error is that of `os.Create`, of the first failing
`WriteString`, or of the final `Flush`. -/
def writeResultsToFile (fs : FileSystem) (filePath : String) (results : List String) :
    Option IOError × FileSystem :=
  if fs.canCreate filePath = false then (some .createFailed, fs)
  else
    let b := writeLoop (fs.space filePath) results ⟨"", 0, none⟩
    match b.err with
    | some e => (some e, fs.withFile filePath b.fileText)
    | none =>
      let b' := b.Flush (fs.space filePath)
      (b'.err, fs.withFile filePath b'.fileText)

/-- The lines of a text in the plain sense: the pieces between consecutive `'\n'`. -/
def textLines (content : String) : List (List Char) :=
  content.data.splitOn '\n'

/-- The domains of a text as the specification words them: the whitespace-trimmed
lines that are non-empty after trimming, in input order. -/
def specDomains (content : String) : List String :=
  (((textLines content).map TrimSpace).filter (fun line => line ≠ [])).map String.mk

/-- A file system holding one file, on a device without a limit. -/
def singleFile (path content : String) : FileSystem where
  readFile := fun p => if p = path then some content else none
  canCreate := fun _ => true
  space := fun _ => none

/-- A file system holding one file, on a device that is full: files can be created
but take no byte. -/
def fullDisk (path content : String) : FileSystem where
  readFile := fun p => if p = path then some content else none
  canCreate := fun _ => true
  space := fun _ => some 0

/-- An entry of exactly `maxScanTokenSize` letters. -/
def longEntry : String := String.mk (List.replicate maxScanTokenSize 'a')

/-! # Theorems -/

/-! ### Lemmas on the probe loop -/

theorem checkDomainLoop_eq_true_iff (env : Env) (domain : String) (rts : List String) :
    checkDomainLoop env domain rts = true ↔
      ∃ rt ∈ rts, queryDNS env domain rt ≠ "" := by
  induction rts with
  | nil => simp [checkDomainLoop]
  | cons rt rest ih =>
    by_cases h : queryDNS env domain rt = ""
    · simp [checkDomainLoop, h, ih]
    · simp [checkDomainLoop, h]

theorem checkDomainLoop_eq_false_iff (env : Env) (domain : String) (rts : List String) :
    checkDomainLoop env domain rts = false ↔
      ∀ rt ∈ rts, queryDNS env domain rt = "" := by
  induction rts with
  | nil => simp [checkDomainLoop]
  | cons rt rest ih =>
    by_cases h : queryDNS env domain rt = ""
    · simp [checkDomainLoop, h, ih]
    · simp [checkDomainLoop, h]

theorem queryDNS_of_fails (env : Env) (domain recordType : String)
    (h : ProbeFails env domain recordType) : queryDNS env domain recordType = "" := by
  unfold queryDNS
  rcases h with h | h | ⟨resp, hr, h⟩
  · simp [h]
  · simp [h]
  · simp only [hr]
    rcases h with h | h | ⟨body, hb, h⟩
    · simp [h]
    · simp [h]
    · simp only [hb]
      rcases h with h | ⟨dnsResp, hd, h⟩
      · simp [h]
      · simp only [hd]
        rcases h with h | h
        · simp [h]
        · simp [h]

theorem queryDNS_of_succeeds (env : Env) (domain recordType : String)
    (h : ProbeSucceeds env domain recordType) :
    ∃ resp body dnsResp first rest,
      env.clientDo (queryURL domain recordType) = some resp ∧
      resp.Body = some body ∧ env.unmarshal body = some dnsResp ∧
      dnsResp.Answer = first :: rest ∧
      queryDNS env domain recordType = first.Data := by
  obtain ⟨hn, resp, body, dnsResp, hr, hs, hb, hd, h0, ha⟩ := h
  cases hA : dnsResp.Answer with
  | nil => exact absurd hA ha
  | cons first rest =>
    refine ⟨resp, body, dnsResp, first, rest, hr, hb, hd, hA, ?_⟩
    simp [queryDNS, hn, hr, hs, hb, hd, h0, hA]

/-- The failure causes are all the ways of not meeting the conditions (a)-(e). -/
theorem probeFails_of_not_succeeds (env : Env) (domain recordType : String)
    (h : ¬ ProbeSucceeds env domain recordType) : ProbeFails env domain recordType := by
  unfold ProbeSucceeds at h
  unfold ProbeFails
  by_cases hn : env.newRequest (queryURL domain recordType) = false
  · exact Or.inl hn
  · right
    cases hr : env.clientDo (queryURL domain recordType) with
    | none => exact Or.inl rfl
    | some resp =>
      right
      refine ⟨resp, rfl, ?_⟩
      by_cases hs : resp.StatusCode = 200
      · right
        cases hb : resp.Body with
        | none => exact Or.inl rfl
        | some body =>
          right
          refine ⟨body, rfl, ?_⟩
          cases hd : env.unmarshal body with
          | none => exact Or.inl rfl
          | some dnsResp =>
            right
            refine ⟨dnsResp, rfl, ?_⟩
            by_cases h0 : dnsResp.Status = 0
            · right
              by_contra ha
              exact h ⟨by simpa using hn, resp, body, dnsResp, hr, hs, hb, hd, h0, ha⟩
            · exact Or.inl h0
      · exact Or.inl hs

/-- Under the conditions (a)-(e) the probe is true exactly when the data string of the
first answer is not empty. -/
theorem queryDNS_ne_empty_iff (env : Env) (domain recordType : String)
    (h : ProbeSucceeds env domain recordType) :
    ∃ resp body dnsResp first rest,
      env.clientDo (queryURL domain recordType) = some resp ∧
      resp.Body = some body ∧ env.unmarshal body = some dnsResp ∧
      dnsResp.Answer = first :: rest ∧
      (queryDNS env domain recordType ≠ "" ↔ first.Data ≠ "") := by
  obtain ⟨resp, body, dnsResp, first, rest, hr, hb, hd, hA, hq⟩ :=
    queryDNS_of_succeeds env domain recordType h
  exact ⟨resp, body, dnsResp, first, rest, hr, hb, hd, hA, by rw [hq]⟩

theorem checkDomainLoopLog_fst (env : Env) (domain : String) (rts : List String) :
    ∀ log, (checkDomainLoopLog env domain rts log).1 = checkDomainLoop env domain rts := by
  induction rts with
  | nil => intro log; rfl
  | cons rt rest ih =>
    intro log
    by_cases h : queryDNS env domain rt = ""
    · simp [checkDomainLoopLog, checkDomainLoop, h, ih]
    · simp [checkDomainLoopLog, checkDomainLoop, h]

theorem checkDomainLoopLog_all_fail (env : Env) (domain : String) (rts : List String) :
    ∀ log, (∀ rt ∈ rts, queryDNS env domain rt = "") →
      checkDomainLoopLog env domain rts log = (false, log ++ rts) := by
  induction rts with
  | nil => intro log _; simp [checkDomainLoopLog]
  | cons rt rest ih =>
    intro log h
    have h1 := h rt (by simp)
    have h2 := ih (log ++ [rt]) (fun r hr => h r (by simp [hr]))
    simp [checkDomainLoopLog, h1, h2]

theorem checkDomainLoopLog_first_hit (env : Env) (domain : String) (pre : List String)
    (X : String) (post : List String) :
    ∀ log, (∀ rt ∈ pre, queryDNS env domain rt = "") → queryDNS env domain X ≠ "" →
      checkDomainLoopLog env domain (pre ++ X :: post) log = (true, log ++ (pre ++ [X])) := by
  induction pre with
  | nil => intro log _ hX; simp [checkDomainLoopLog, hX]
  | cons rt rest ih =>
    intro log h hX
    have h1 := h rt (by simp)
    have h2 := ih (log ++ [rt]) (fun r hr => h r (by simp [hr])) hX
    simp [checkDomainLoopLog, h1, h2]

theorem checkDomainLoopLog_take (env : Env) (domain : String) (rts : List String) :
    ∀ log, ∃ k, (checkDomainLoopLog env domain rts log).2 = log ++ rts.take k := by
  induction rts with
  | nil => intro log; exact ⟨0, by simp [checkDomainLoopLog]⟩
  | cons rt rest ih =>
    intro log
    by_cases h : queryDNS env domain rt = ""
    · obtain ⟨k, hk⟩ := ih (log ++ [rt])
      exact ⟨k + 1, by simp [checkDomainLoopLog, h, hk]⟩
    · exact ⟨1, by simp [checkDomainLoopLog, h]⟩

theorem checkDomainLoopLog_cons (env : Env) (domain : String) (rt : String)
    (rest log : List String) :
    ∃ tail, (checkDomainLoopLog env domain (rt :: rest) log).2 = log ++ rt :: tail := by
  by_cases h : queryDNS env domain rt = ""
  · obtain ⟨k, hk⟩ := checkDomainLoopLog_take env domain rest (log ++ [rt])
    exact ⟨rest.take k, by simp [checkDomainLoopLog, h, hk]⟩
  · exact ⟨[], by simp [checkDomainLoopLog, h]⟩

theorem checkDomainLoopLog_skip (env : Env) (domain : String) (pre rest : List String) :
    ∀ log, (∀ rt ∈ pre, queryDNS env domain rt = "") →
      checkDomainLoopLog env domain (pre ++ rest) log =
        checkDomainLoopLog env domain rest (log ++ pre) := by
  induction pre with
  | nil => intro log _; simp
  | cons rt pre ih =>
    intro log h
    have h1 := h rt (by simp)
    have h2 := ih (log ++ [rt]) (fun r hr => h r (by simp [hr]))
    simp [checkDomainLoopLog, h1, h2]

theorem recordTypes_nodup : recordTypes.Nodup := by decide

theorem queryURL_injective (domain : String) {a b : String}
    (h : queryURL domain a = queryURL domain b) : a = b := by
  have := congrArg String.data h
  simp only [queryURL, String.data_append, List.append_assoc] at this
  have h1 := List.append_cancel_left this
  have h2 := List.append_cancel_left h1
  have h3 := List.append_cancel_left h2
  exact String.ext h3

theorem assignEnv_probe (domain : String) (assign : String → Bool) :
    ∀ rt ∈ recordTypes,
      (queryDNS (assignEnv domain assign) domain rt ≠ "" ↔ assign rt = true) := by
  intro rt hrt
  have hany : ((recordTypes.filter assign).any
      (fun rt' => queryURL domain rt == queryURL domain rt')) = assign rt := by
    cases ha : assign rt with
    | true =>
      rw [List.any_eq_true]
      exact ⟨rt, List.mem_filter.2 ⟨hrt, ha⟩, by simp⟩
    | false =>
      rw [List.any_eq_false]
      intro rt' hrt' heq
      have := queryURL_injective domain (by simpa using heq)
      subst this
      rw [(List.mem_filter.1 hrt').2] at ha
      exact absurd ha (by simp)
  unfold queryDNS
  simp only [assignEnv]
  rw [hany]
  cases assign rt <;> simp

/-! ### The claims on the resolver client and the probe loop -/

/-- C1 (OR-aggregation): over the six record types A, AAAA, TXT, CNAME, NS, MX and for
every behaviour of the resolver, `checkDomain` returns true exactly when at least one
probe is true (`queryDNS` returns a non-empty string) and false exactly when all six
are false; and every assignment of outcomes to the six record types is the behaviour
of some resolver. -/
theorem checkDomain_or_aggregation (env : Env) (domain : String) :
    recordTypes = ["A", "AAAA", "TXT", "CNAME", "NS", "MX"] ∧
    (checkDomain env domain = true ↔ ∃ rt ∈ recordTypes, queryDNS env domain rt ≠ "") ∧
    (checkDomain env domain = false ↔ ∀ rt ∈ recordTypes, queryDNS env domain rt = "") ∧
    (∀ assign : String → Bool, ∃ env' : Env,
      (∀ rt ∈ recordTypes, (queryDNS env' domain rt ≠ "" ↔ assign rt = true)) ∧
      (checkDomain env' domain = true ↔ ∃ rt ∈ recordTypes, assign rt = true)) := by
  refine ⟨rfl, checkDomainLoop_eq_true_iff env domain recordTypes,
    checkDomainLoop_eq_false_iff env domain recordTypes, ?_⟩
  intro assign
  refine ⟨assignEnv domain assign, assignEnv_probe domain assign, ?_⟩
  rw [checkDomain, checkDomainLoop_eq_true_iff]
  constructor
  · rintro ⟨rt, hrt, h⟩
    exact ⟨rt, hrt, (assignEnv_probe domain assign rt hrt).1 h⟩
  · rintro ⟨rt, hrt, h⟩
    exact ⟨rt, hrt, (assignEnv_probe domain assign rt hrt).2 h⟩

/-- C2 (query success), evaluated where it fails: the resolver answers every one of the
six probes of `example.com` with status 200 and the body
`{"Status":0,"Answer":[{"data":""}]}`, so every probe meets the conditions (a)-(e),
and yet `queryDNS` returns the empty string for each and `checkDomain` returns false. -/
theorem checkDomain_empty_data_not_found :
    (∀ rt ∈ recordTypes, ProbeSucceeds emptyDataEnv "example.com" rt) ∧
    (∀ rt ∈ recordTypes, queryDNS emptyDataEnv "example.com" rt = "") ∧
    checkDomain emptyDataEnv "example.com" = false := by
  refine ⟨?_, ?_, by decide⟩
  · intro rt _
    exact ⟨rfl, _, _, _, rfl, rfl, rfl, rfl, rfl, by simp⟩
  · intro rt _
    rfl

/-- C3 (uniform failure collapse): if request construction or the network call fails,
or the status is not 200, or the body cannot be read or decoded, or the decoded status
is non-zero, or the answer array is empty, then `queryDNS` returns the empty string (a
plain value: the function is total and has no error result), and `checkDomain` moves
on: the record type after the failed one is probed next, and the verdict is true
exactly when one of the other record types has a true probe. -/
theorem queryDNS_failure_collapse (env : Env) (domain recordType : String)
    (h : ProbeFails env domain recordType) :
    queryDNS env domain recordType = "" ∧
    (∀ rest, (checkDomainLoop env domain (recordType :: rest) = true ↔
      ∃ rt ∈ rest, queryDNS env domain rt ≠ "")) ∧
    (∀ next rest log, ∃ tail,
      (checkDomainLoopLog env domain (recordType :: next :: rest) log).2 =
        log ++ [recordType, next] ++ tail) ∧
    (∀ pre next post, recordTypes = pre ++ recordType :: next :: post →
      (∀ rt ∈ pre, queryDNS env domain rt = "") →
      ∃ tail, (checkDomainLog env domain).2 = pre ++ [recordType, next] ++ tail) ∧
    (checkDomain env domain = true ↔
      ∃ rt ∈ recordTypes, rt ≠ recordType ∧ queryDNS env domain rt ≠ "") := by
  have hq := queryDNS_of_fails env domain recordType h
  have hstep : ∀ rest log, checkDomainLoopLog env domain (recordType :: rest) log =
      checkDomainLoopLog env domain rest (log ++ [recordType]) := by
    intro rest log
    rw [checkDomainLoopLog]
    simp only [hq, ne_eq, not_true_eq_false, if_false]
  refine ⟨hq, ?_, ?_, ?_, ?_⟩
  · intro rest
    rw [← checkDomainLoop_eq_true_iff]
    simp [checkDomainLoop, hq]
  · intro next rest log
    obtain ⟨tail, ht⟩ := checkDomainLoopLog_cons env domain next rest (log ++ [recordType])
    exact ⟨tail, by rw [hstep, ht]; simp⟩
  · intro pre next post hsplit hpre
    obtain ⟨tail, ht⟩ := checkDomainLoopLog_cons env domain next post (pre ++ [recordType])
    refine ⟨tail, ?_⟩
    unfold checkDomainLog
    rw [hsplit, checkDomainLoopLog_skip env domain pre _ [] hpre, hstep]
    simp only [List.nil_append]
    rw [ht]
    simp
  · rw [checkDomain, checkDomainLoop_eq_true_iff]
    constructor
    · rintro ⟨rt, hrt, hne⟩
      refine ⟨rt, hrt, ?_, hne⟩
      rintro rfl
      exact hne hq
    · rintro ⟨rt, hrt, -, hne⟩
      exact ⟨rt, hrt, hne⟩

/-- Witness for C3: the `A` probe of `example.com` fails at the network layer, the
`AAAA` probe is made next and finds a record, so the verdict is true. -/
theorem queryDNS_failure_collapse_witness :
    ProbeFails aaaaEnv "example.com" "A" ∧
    queryDNS aaaaEnv "example.com" "A" = "" ∧
    checkDomain aaaaEnv "example.com" = true ∧
    (checkDomainLog aaaaEnv "example.com").2 = ["A", "AAAA"] :=
  ⟨Or.inr (Or.inl rfl),
    (queryDNS_failure_collapse aaaaEnv "example.com" "A" (Or.inr (Or.inl rfl))).1,
    (queryDNS_failure_collapse aaaaEnv "example.com" "A"
      (Or.inr (Or.inl rfl))).2.2.2.2.2 ⟨"AAAA", by decide, by decide, by decide⟩,
    by decide⟩

/-- C4 (short-circuit in priority order): the record types `checkDomain` probes are
the start of [A, AAAA, TXT, CNAME, NS, MX] up to and including the first record type
whose probe is true, and the whole list when no probe is true; no record type after
that one is probed and none is probed twice. -/
theorem checkDomain_short_circuit (env : Env) (domain : String) :
    (checkDomainLog env domain).1 = checkDomain env domain ∧
    (∀ pre X post, recordTypes = pre ++ X :: post →
      (∀ rt ∈ pre, queryDNS env domain rt = "") → queryDNS env domain X ≠ "" →
        (checkDomainLog env domain).2 = pre ++ [X] ∧
        ∀ Y ∈ post, Y ∉ (checkDomainLog env domain).2) ∧
    ((∀ rt ∈ recordTypes, queryDNS env domain rt = "") →
      (checkDomainLog env domain).2 = recordTypes) ∧
    (checkDomainLog env domain).2.Nodup ∧
    (∃ k, (checkDomainLog env domain).2 = recordTypes.take k) := by
  have htake : ∃ k, (checkDomainLog env domain).2 = recordTypes.take k := by
    obtain ⟨k, hk⟩ := checkDomainLoopLog_take env domain recordTypes []
    exact ⟨k, by simpa [checkDomainLog] using hk⟩
  refine ⟨checkDomainLoopLog_fst env domain recordTypes [], ?_, ?_, ?_, htake⟩
  · intro pre X post hsplit hpre hX
    have hlog : (checkDomainLog env domain).2 = pre ++ [X] := by
      unfold checkDomainLog
      rw [hsplit, checkDomainLoopLog_first_hit env domain pre X post [] hpre hX]
      simp
    refine ⟨hlog, ?_⟩
    intro Y hY hmem
    have hnd := recordTypes_nodup
    rw [hsplit] at hnd
    have hnd' : (pre ++ [X] ++ post).Nodup := by simpa using hnd
    rw [hlog] at hmem
    exact (List.nodup_append.1 hnd').2.2 hmem hY
  · intro hall
    unfold checkDomainLog
    rw [checkDomainLoopLog_all_fail env domain recordTypes [] hall]
    simp
  · obtain ⟨k, hk⟩ := htake
    rw [hk]
    exact recordTypes_nodup.sublist (List.take_sublist k recordTypes)

/-- Witness for C4: `exists.example` has an `A` record, so only `A` is probed;
`nonexistent.invalid` has none, so all six are probed. -/
theorem checkDomain_short_circuit_witness :
    (checkDomainLog stubEnv "exists.example").2 = ["A"] ∧
    "AAAA" ∉ (checkDomainLog stubEnv "exists.example").2 ∧
    (checkDomainLog stubEnv "nonexistent.invalid").2 =
      ["A", "AAAA", "TXT", "CNAME", "NS", "MX"] :=
  ⟨((checkDomain_short_circuit stubEnv "exists.example").2.1 [] "A"
      ["AAAA", "TXT", "CNAME", "NS", "MX"] rfl (by simp) (by decide)).1,
    ((checkDomain_short_circuit stubEnv "exists.example").2.1 [] "A"
      ["AAAA", "TXT", "CNAME", "NS", "MX"] rfl (by simp) (by decide)).2 "AAAA" (by simp),
    (checkDomain_short_circuit stubEnv "nonexistent.invalid").2.2.1 (by decide)⟩

/-! ### The dispatcher invariant -/

theorem set_split {α : Type} {l : List α} {i : Nat} {w : α} (h : l[i]? = some w) :
    ∃ l₁ l₂, l = l₁ ++ w :: l₂ ∧ ∀ w', l.set i w' = l₁ ++ w' :: l₂ := by
  induction l generalizing i with
  | nil => simp at h
  | cons x xs ih =>
    cases i with
    | zero =>
      simp at h
      exact ⟨[], xs, by simp [h], by simp⟩
    | succ j =>
      simp at h
      obtain ⟨l₁, l₂, h₁, h₂⟩ := ih h
      exact ⟨x :: l₁, l₂, by simp [h₁], by simp [h₂]⟩

theorem inv_init (env : Env) (domains : List String) : Inv env domains (initState domains) := by
  constructor <;> simp [initState, MainPc.rest]

theorem inv_stepMain {env : Env} {domains : List String} {s s' : State}
    (hinv : Inv env domains s) (h : stepMain s = some s') : Inv env domains s' := by
  obtain ⟨mainPc, workers, closer, wg, results, output, panic⟩ := s
  obtain ⟨h1, h2, h3, h4, h5, h6, h7, h8, h9, h10⟩ := hinv
  simp only at h1 h2 h3 h4 h5 h6 h7 h8 h9 h10
  unfold stepMain at h
  cases mainPc with
  | spawn rest =>
    cases rest with
    | nil =>
      simp only [Option.some.injEq] at h
      subst h
      have hc : closer = none := h5.2 ⟨_, rfl⟩
      subst hc
      constructor <;> simp_all [MainPc.rest]
    | cons d rest =>
      simp only [Option.some.injEq] at h
      subst h
      have hc : closer = none := h5.2 ⟨_, rfl⟩
      subst hc
      constructor <;>
        simp_all [MainPc.rest, List.countP_append, List.filter_append, Worker.delivered,
          WorkerPc.live, List.countP_cons]
      rintro w (hw | rfl) hs
      · exact h8 w hw hs
      · simp at hs
  | collect =>
    simp only at h
    cases hb : results.buf with
    | nil =>
      simp only [hb] at h
      by_cases hcl : results.closed = true
      · simp only [hcl, if_true, Option.some.injEq] at h
        subst h
        constructor <;> simp_all [MainPc.rest]
      · simp [hcl] at h
    | cons r buf =>
      simp only [hb, Option.some.injEq] at h
      subst h
      constructor <;> simp_all [MainPc.rest]
  | emit => simp at h

theorem inv_stepCloser {env : Env} {domains : List String} {s s' : State}
    (hinv : Inv env domains s) (h : stepCloser s = some s') : Inv env domains s' := by
  obtain ⟨mainPc, workers, closer, wg, results, output, panic⟩ := s
  obtain ⟨h1, h2, h3, h4, h5, h6, h7, h8, h9, h10⟩ := hinv
  simp only at h1 h2 h3 h4 h5 h6 h7 h8 h9 h10
  unfold stepCloser at h
  cases closer with
  | none => simp at h
  | some c =>
    cases c with
    | wait =>
      by_cases hw : wg = 0
      · simp only [hw, if_true, Option.some.injEq] at h
        subst h
        constructor <;> simp_all
      · simp [hw] at h
    | close =>
      by_cases hcl : results.closed = true
      · simp_all
      · simp only [hcl] at h
        simp only [Bool.false_eq_true, if_false, Option.some.injEq] at h
        subst h
        constructor <;> simp_all
    | exited => simp at h

theorem mem_update {l₁ l₂ : List Worker} {d : String} {pc pc' : WorkerPc} {w : Worker}
    (hm : w ∈ l₁ ++ ⟨d, pc'⟩ :: l₂) : w = ⟨d, pc'⟩ ∨ w ∈ l₁ ++ ⟨d, pc⟩ :: l₂ := by
  simp only [List.mem_append, List.mem_cons] at hm ⊢
  tauto

theorem inv_worker_check {env : Env} {domains : List String} {s : State} {l₁ l₂ : List Worker}
    {d : String} {pc' : WorkerPc} (hinv : Inv env domains s)
    (hl : s.workers = l₁ ++ ⟨d, .check⟩ :: l₂)
    (hpc : pc' = if checkDomain env d = true then WorkerPc.send else WorkerPc.deferred) :
    Inv env domains { s with workers := l₁ ++ ⟨d, pc'⟩ :: l₂ } := by
  obtain ⟨h1, h2, h3, h4, h5, h6, h7, h8, h9, h10⟩ := hinv
  rw [hl] at h2 h4 h8 h9
  have hlive : pc'.live = true := by subst hpc; split <;> rfl
  have hlive0 : WorkerPc.check.live = true := rfl
  have hdel : Worker.delivered env ⟨d, pc'⟩ = false := by
    subst hpc; by_cases hc : checkDomain env d = true <;> simp [hc, Worker.delivered]
  have hdel0 : Worker.delivered env ⟨d, .check⟩ = false := rfl
  refine ⟨h1, ?_, h3, ?_, h5, h6, h7, ?_, ?_, h10⟩
  · simpa using h2
  · simpa [List.countP_append, List.countP_cons, hlive, hlive0] using h4
  · intro w hm hs
    rcases mem_update hm with rfl | hm
    · by_cases hc : checkDomain env d = true
      · exact hc
      · subst hpc; simp [hc] at hs
    · exact h8 w hm hs
  · simpa [List.filter_append, List.filter_cons, hdel, hdel0] using h9

theorem inv_worker_send {env : Env} {domains : List String} {s : State} {l₁ l₂ : List Worker}
    {d : String} (hinv : Inv env domains s)
    (hl : s.workers = l₁ ++ ⟨d, .send⟩ :: l₂) :
    Inv env domains { s with
      results := { s.results with buf := s.results.buf ++ [d] }
      workers := l₁ ++ ⟨d, .deferred⟩ :: l₂ } := by
  obtain ⟨h1, h2, h3, h4, h5, h6, h7, h8, h9, h10⟩ := hinv
  rw [hl] at h2 h4 h8 h9
  have hd : checkDomain env d = true := h8 ⟨d, .send⟩ (by simp) rfl
  have hlive : WorkerPc.deferred.live = true := rfl
  have hlive0 : WorkerPc.send.live = true := rfl
  have hdel : Worker.delivered env ⟨d, .deferred⟩ = true := hd
  have hdel0 : Worker.delivered env ⟨d, .send⟩ = false := rfl
  refine ⟨h1, ?_, h3, ?_, h5, h6, h7, ?_, ?_, ?_⟩
  · simpa using h2
  · simpa [List.countP_append, List.countP_cons, hlive, hlive0] using h4
  · intro w hm hs
    rcases mem_update hm with rfl | hm
    · simp at hs
    · exact h8 w hm hs
  · simp only [List.filter_append, List.filter_cons, hdel, hdel0, if_true,
      List.map_append, List.map_cons, Bool.false_eq_true, if_false] at h9 ⊢
    rw [← List.append_assoc]
    refine (List.Perm.append_right [d] h9).trans ?_
    simp only [List.append_assoc]
    exact List.Perm.append_left _ (List.perm_append_singleton _ _)
  · intro he
    have hcl := (h10 he).1
    have hwg := h6 (Or.inr (h7.1 hcl))
    rw [hwg] at h4
    simp only [List.countP_append, List.countP_cons, hlive0, if_true] at h4
    omega

theorem inv_worker_deferred {env : Env} {domains : List String} {s : State}
    {l₁ l₂ : List Worker} {d : String} (hinv : Inv env domains s)
    (hl : s.workers = l₁ ++ ⟨d, .deferred⟩ :: l₂) :
    Inv env domains { s with wg := s.wg - 1, workers := l₁ ++ ⟨d, .exited⟩ :: l₂ } := by
  obtain ⟨h1, h2, h3, h4, h5, h6, h7, h8, h9, h10⟩ := hinv
  rw [hl] at h2 h4 h8 h9
  have hlive : WorkerPc.exited.live = false := rfl
  have hlive0 : WorkerPc.deferred.live = true := rfl
  have hdel : Worker.delivered env ⟨d, .exited⟩ = checkDomain env d := rfl
  have hdel0 : Worker.delivered env ⟨d, .deferred⟩ = checkDomain env d := rfl
  simp only [List.countP_append, List.countP_cons, hlive0, if_true] at h4
  have hwg : s.wg ≠ 0 := by omega
  refine ⟨h1, ?_, h3, ?_, h5, ?_, h7, ?_, ?_, h10⟩
  · simpa using h2
  · simp only [List.countP_append, List.countP_cons, hlive, Bool.false_eq_true, if_false]
    omega
  · intro hc
    exact absurd (h6 hc) hwg
  · intro w hm hs
    rcases mem_update hm with rfl | hm
    · simp at hs
    · exact h8 w hm hs
  · by_cases hc : checkDomain env d = true <;>
      simpa [List.filter_append, List.filter_cons, hdel, hdel0, hc] using h9

theorem inv_stepWorker {env : Env} {domains : List String} {s s' : State} {i : Nat}
    {w : Worker} (hinv : Inv env domains s) (hw : s.workers[i]? = some w)
    (h : stepWorker env s i w = some s') (hp : s'.panic = none) : Inv env domains s' := by
  obtain ⟨l₁, l₂, hl, hset⟩ := set_split hw
  obtain ⟨d, pc⟩ := w
  unfold stepWorker at h
  cases pc with
  | check =>
    simp only at h
    by_cases hc : checkDomain env d = true
    · rw [if_pos hc, hset] at h
      simp only [Option.some.injEq] at h
      subst h
      exact inv_worker_check hinv hl (by simp [hc])
    · rw [if_neg hc, hset] at h
      simp only [Option.some.injEq] at h
      subst h
      exact inv_worker_check hinv hl (by simp [hc])
  | send =>
    simp only at h
    by_cases hcl : s.results.closed = true
    · rw [if_pos hcl] at h
      simp only [Option.some.injEq] at h
      subst h
      simp at hp
    · rw [if_neg hcl] at h
      by_cases hlen : s.results.buf.length < s.results.cap
      · rw [if_pos hlen, hset] at h
        simp only [Option.some.injEq] at h
        subst h
        exact inv_worker_send hinv hl
      · simp [hlen] at h
  | deferred =>
    simp only at h
    by_cases hwg : s.wg = 0
    · rw [if_pos hwg] at h
      simp only [Option.some.injEq] at h
      subst h
      simp at hp
    · rw [if_neg hwg, hset] at h
      simp only [Option.some.injEq] at h
      subst h
      exact inv_worker_deferred hinv hl
  | exited => simp at h

theorem step_noPanic {env : Env} {domains : List String} {s s' : State} {t : Tid}
    (hinv : Inv env domains s) (h : step env t s = some s') : s'.panic = none := by
  have h1 := hinv.noPanic
  unfold step at h
  rw [h1] at h
  simp only at h
  cases t with
  | main =>
    simp only at h
    unfold stepMain at h
    split at h
    · simp only [Option.some.injEq] at h; subst h; exact h1
    · simp only [Option.some.injEq] at h; subst h; exact h1
    · split at h
      · simp only [Option.some.injEq] at h; subst h; exact h1
      · split at h
        · simp only [Option.some.injEq] at h; subst h; exact h1
        · exact absurd h (by simp)
    · exact absurd h (by simp)
  | worker i =>
    simp only at h
    cases hw : s.workers[i]? with
    | none => simp [hw] at h
    | some w =>
      simp only [hw] at h
      have hm : w ∈ s.workers := List.mem_iff_getElem?.2 ⟨i, hw⟩
      unfold stepWorker at h
      cases hpc : w.pc with
      | check =>
        simp only [hpc] at h
        split at h <;> (simp only [Option.some.injEq] at h; subst h; exact h1)
      | send =>
        simp only [hpc] at h
        have hlive : 0 < s.workers.countP (fun w => w.pc.live) :=
          List.countP_pos_iff.2 ⟨w, hm, by simp [hpc, WorkerPc.live]⟩
        have hncl : ¬ s.results.closed = true := by
          intro hcl
          have := hinv.waited (Or.inr (hinv.closedIff.1 hcl))
          have := hinv.counter
          omega
        rw [if_neg hncl] at h
        split at h
        · simp only [Option.some.injEq] at h; subst h; exact h1
        · exact absurd h (by simp)
      | deferred =>
        simp only [hpc] at h
        have hlive : 0 < s.workers.countP (fun w => w.pc.live) :=
          List.countP_pos_iff.2 ⟨w, hm, by simp [hpc, WorkerPc.live]⟩
        have hwg : ¬ s.wg = 0 := by
          have := hinv.counter
          omega
        rw [if_neg hwg] at h
        simp only [Option.some.injEq] at h; subst h; exact h1
      | exited => simp [hpc] at h
  | closer =>
    simp only at h
    unfold stepCloser at h
    split at h
    · exact absurd h (by simp)
    · split at h
      · simp only [Option.some.injEq] at h; subst h; exact h1
      · exact absurd h (by simp)
    · rename_i hc
      have hncl : ¬ s.results.closed = true := by
        intro hcl
        have := hinv.closedIff.1 hcl
        rw [hc] at this
        simp at this
      rw [if_neg hncl] at h
      simp only [Option.some.injEq] at h; subst h; exact h1
    · exact absurd h (by simp)

theorem inv_step {env : Env} {domains : List String} {s s' : State} {t : Tid}
    (hinv : Inv env domains s) (h : step env t s = some s') : Inv env domains s' := by
  have hp := step_noPanic hinv h
  have h1 := hinv.noPanic
  unfold step at h
  rw [h1] at h
  simp only at h
  cases t with
  | main => exact inv_stepMain hinv h
  | worker i =>
    simp only at h
    cases hw : s.workers[i]? with
    | none => simp [hw] at h
    | some w =>
      simp only [hw] at h
      exact inv_stepWorker hinv hw h hp
  | closer => exact inv_stepCloser hinv h

theorem inv_runFrom {env : Env} {domains : List String} (sched : List Tid) :
    ∀ {s s' : State}, Inv env domains s → runFrom env s sched = some s' →
      Inv env domains s' := by
  induction sched with
  | nil =>
    intro s s' hinv h
    simp only [runFrom, Option.some.injEq] at h
    subst h
    exact hinv
  | cons t sched ih =>
    intro s s' hinv h
    unfold runFrom at h
    cases hs : step env t s with
    | none => simp [hs] at h
    | some s₁ =>
      simp only [hs] at h
      exact ih (inv_step hinv hs) h

theorem inv_run {env : Env} {domains : List String} {sched : List Tid} {s : State}
    (h : run env domains sched = some s) : Inv env domains s :=
  inv_runFrom sched (inv_init env domains) h

/-! ### Progress and termination of the dispatcher -/

theorem all_exited_of_closed {env : Env} {domains : List String} {s : State}
    (hinv : Inv env domains s) (hcl : s.results.closed = true) :
    s.mainPc.rest = [] ∧ ∀ w ∈ s.workers, w.pc = .exited := by
  have hce := hinv.closedIff.1 hcl
  have hwg := hinv.waited (Or.inr hce)
  have hcnt := hinv.counter
  rw [hwg] at hcnt
  have hall := List.countP_eq_zero.1 hcnt.symm
  constructor
  · cases hm : s.mainPc with
    | spawn rest =>
      have := hinv.closerStarted.2 ⟨rest, hm⟩
      rw [this] at hce
      simp at hce
    | collect => rfl
    | emit => rfl
  · intro w hw
    have := hall w hw
    cases hpc : w.pc <;> simp_all [WorkerPc.live]

theorem progress {env : Env} {domains : List String} {s : State}
    (hinv : Inv env domains s) (hne : s.mainPc ≠ .emit) :
    ∃ t s', step env t s = some s' := by
  have h1 := hinv.noPanic
  by_cases hlive : 0 < s.workers.countP (fun w => w.pc.live)
  · -- some per-domain goroutine can move
    obtain ⟨w, hm, hwl⟩ := List.countP_pos_iff.1 hlive
    obtain ⟨i, hi⟩ := List.mem_iff_getElem?.1 hm
    have hwg : ¬ s.wg = 0 := by
      have := hinv.counter
      omega
    have hncl : ¬ s.results.closed = true := by
      intro hcl
      exact hwg (hinv.waited (Or.inr (hinv.closedIff.1 hcl)))
    refine ⟨.worker i, ?_⟩
    unfold step
    rw [h1]
    simp only [hi]
    unfold stepWorker
    cases hpc : w.pc with
    | check =>
      simp only
      split <;> exact ⟨_, rfl⟩
    | send =>
      simp only
      rw [if_neg hncl]
      have hlen : s.results.buf.length < s.results.cap := by
        have hq := hinv.queued.length_eq
        have hnd : ¬ (w.delivered env = true) := by simp [Worker.delivered, hpc]
        have hlt : (s.workers.filter (fun w => w.delivered env)).length < s.workers.length :=
          List.length_filter_lt_length_iff_exists.2 ⟨w, hm, hnd⟩
        have hsp := congrArg List.length hinv.spawned
        have hcap := hinv.capacity
        simp only [List.length_append, List.length_map] at hq hsp
        omega
      rw [if_pos hlen]
      exact ⟨_, rfl⟩
    | deferred =>
      simp only
      rw [if_neg hwg]
      exact ⟨_, rfl⟩
    | exited => simp [hpc, WorkerPc.live] at hwl
  · have hwg : s.wg = 0 := by
      have := hinv.counter
      omega
    cases hm : s.mainPc with
    | spawn rest =>
      refine ⟨.main, ?_⟩
      unfold step
      rw [h1]
      simp only
      unfold stepMain
      rw [hm]
      cases rest <;> exact ⟨_, rfl⟩
    | emit => exact absurd hm hne
    | collect =>
      cases hc : s.closer with
      | none =>
        obtain ⟨rest, hr⟩ := hinv.closerStarted.1 hc
        rw [hm] at hr
        cases hr
      | some c =>
        cases c with
        | wait =>
          refine ⟨.closer, ?_⟩
          unfold step
          rw [h1]
          simp only
          unfold stepCloser
          rw [hc]
          simp only
          rw [if_pos hwg]
          exact ⟨_, rfl⟩
        | close =>
          refine ⟨.closer, ?_⟩
          unfold step
          rw [h1]
          simp only
          unfold stepCloser
          rw [hc]
          simp only
          split <;> exact ⟨_, rfl⟩
        | exited =>
          have hcl := hinv.closedIff.2 hc
          refine ⟨.main, ?_⟩
          unfold step
          rw [h1]
          simp only
          unfold stepMain
          rw [hm]
          simp only
          split
          · exact ⟨_, rfl⟩
          · rw [if_pos hcl]
            exact ⟨_, rfl⟩

theorem weight_update (l₁ l₂ : List Worker) (w : Worker) :
    ((l₁ ++ w :: l₂).map (fun w => w.pc.weight)).sum =
      (l₁.map (fun w => w.pc.weight)).sum + w.pc.weight +
        (l₂.map (fun w => w.pc.weight)).sum := by
  simp [Nat.add_assoc]

theorem measure_step {env : Env} {s s' : State} {t : Tid}
    (h : step env t s = some s') (hp : s'.panic = none) : s'.measure < s.measure := by
  unfold step at h
  split at h
  · exact absurd h (by simp)
  · cases t with
    | main =>
      simp only at h
      unfold stepMain at h
      split at h
      · rename_i hm
        simp only [Option.some.injEq] at h; subst h
        simp only [State.measure, hm, List.map_append, List.sum_append, List.map_cons,
          List.map_nil, List.sum_cons, List.sum_nil, WorkerPc.weight, List.length_cons]
        omega
      · rename_i hm
        have hc : s.closer = none ∨ s.closer ≠ none := by
          cases s.closer <;> simp
        simp only [Option.some.injEq] at h; subst h
        simp only [State.measure, hm, List.length_nil]
        omega
      · rename_i hm
        split at h
        · rename_i hb
          simp only [Option.some.injEq] at h; subst h
          simp only [State.measure, hm, hb, List.length_cons]
          omega
        · split at h
          · simp only [Option.some.injEq] at h; subst h
            simp only [State.measure, hm]
            omega
          · exact absurd h (by simp)
      · exact absurd h (by simp)
    | worker i =>
      simp only at h
      cases hw : s.workers[i]? with
      | none => simp [hw] at h
      | some w =>
        simp only [hw] at h
        obtain ⟨l₁, l₂, hl, hset⟩ := set_split hw
        obtain ⟨d, pc⟩ := w
        unfold stepWorker at h
        cases pc with
        | check =>
          simp only at h
          split at h <;>
          · simp only [Option.some.injEq, hset] at h; subst h
            simp only [State.measure, hl, weight_update]
            simp only [WorkerPc.weight]
            omega
        | send =>
          simp only at h
          split at h
          · simp only [Option.some.injEq] at h; subst h
            simp at hp
          · split at h
            · simp only [Option.some.injEq, hset] at h; subst h
              simp only [State.measure, hl, weight_update, List.length_append,
                List.length_singleton]
              simp only [WorkerPc.weight]
              omega
            · exact absurd h (by simp)
        | deferred =>
          simp only at h
          split at h
          · simp only [Option.some.injEq] at h; subst h
            simp at hp
          · simp only [Option.some.injEq, hset] at h; subst h
            simp only [State.measure, hl, weight_update]
            simp only [WorkerPc.weight]
            omega
        | exited => simp at h
    | closer =>
      simp only at h
      unfold stepCloser at h
      split at h
      · exact absurd h (by simp)
      · rename_i hc
        split at h
        · simp only [Option.some.injEq] at h; subst h
          simp only [State.measure, hc]
          omega
        · exact absurd h (by simp)
      · rename_i hc
        split at h
        · simp only [Option.some.injEq] at h; subst h
          simp at hp
        · simp only [Option.some.injEq] at h; subst h
          simp only [State.measure, hc]
          omega
      · exact absurd h (by simp)

theorem completes_from {env : Env} {domains : List String} (n : Nat) :
    ∀ s : State, Inv env domains s → s.measure ≤ n →
      ∃ sched s', runFrom env s sched = some s' ∧ s'.mainPc = .emit := by
  induction n with
  | zero =>
    intro s hinv hm
    by_cases he : s.mainPc = .emit
    · exact ⟨[], s, rfl, he⟩
    · obtain ⟨t, s₁, hs⟩ := progress hinv he
      have := measure_step hs (step_noPanic hinv hs)
      omega
  | succ n ih =>
    intro s hinv hm
    by_cases he : s.mainPc = .emit
    · exact ⟨[], s, rfl, he⟩
    · obtain ⟨t, s₁, hs⟩ := progress hinv he
      have hlt := measure_step hs (step_noPanic hinv hs)
      obtain ⟨sched, s', hr, he'⟩ := ih s₁ (inv_step hinv hs) (by omega)
      refine ⟨t :: sched, s', ?_, he'⟩
      simp only [runFrom, hs, hr]

theorem runFrom_append (env : Env) (sched₁ sched₂ : List Tid) :
    ∀ s : State, runFrom env s (sched₁ ++ sched₂) =
      (runFrom env s sched₁).bind (fun s₁ => runFrom env s₁ sched₂) := by
  induction sched₁ with
  | nil => intro s; rfl
  | cons t sched₁ ih =>
    intro s
    simp only [List.cons_append, runFrom]
    cases step env t s with
    | none => rfl
    | some s₁ => exact ih s₁

theorem output_of_emit {env : Env} {domains : List String} {s : State}
    (hinv : Inv env domains s) (he : s.mainPc = .emit) :
    s.output.Perm (domains.filter (fun d => checkDomain env d)) := by
  obtain ⟨hcl, hbuf⟩ := hinv.drained he
  obtain ⟨hrest, hall⟩ := all_exited_of_closed hinv hcl
  have hq := hinv.queued
  have hsp := hinv.spawned
  rw [hrest, List.append_nil] at hsp
  rw [hbuf, List.append_nil] at hq
  have hf : s.workers.filter (fun w => w.delivered env) =
      s.workers.filter ((fun d => checkDomain env d) ∘ fun w => w.domain) := by
    apply List.filter_congr
    intro w hw
    simp [Worker.delivered, hall w hw]
  rw [hf, ← List.filter_map, hsp] at hq
  exact hq

/-! ### The claims on the dispatcher -/

theorem length_le_measure {env : Env} {domains : List String} (sched : List Tid) :
    ∀ {s s' : State}, Inv env domains s → runFrom env s sched = some s' →
      sched.length + s'.measure ≤ s.measure := by
  induction sched with
  | nil =>
    intro s s' _ h
    simp only [runFrom, Option.some.injEq] at h
    subst h
    simp
  | cons t sched ih =>
    intro s s' hinv h
    unfold runFrom at h
    cases hs : step env t s with
    | none => simp [hs] at h
    | some s₁ =>
      simp only [hs] at h
      have h1 := measure_step hs (step_noPanic hinv hs)
      have h2 := ih (inv_step hinv hs) h
      simp only [List.length_cons]
      omega

theorem checkDomain_eq_any (env : Env) (domain : String) :
    checkDomain env domain = recordTypes.any (fun rt => queryDNS env domain rt != "") := by
  rw [Bool.eq_iff_iff, checkDomain, checkDomainLoop_eq_true_iff, List.any_eq_true]
  simp

theorem first_occurrence {α : Type} {a : α} :
    ∀ {x₁ x₂ z₁ z₂ : List α}, a ∉ x₁ → a ∉ x₂ → x₁ ++ a :: z₁ = x₂ ++ a :: z₂ →
      x₁ = x₂ ∧ z₁ = z₂ := by
  intro x₁
  induction x₁ with
  | nil =>
    intro x₂ z₁ z₂ _ h₂ h
    cases x₂ with
    | nil => simpa using h
    | cons b x₂ =>
      simp only [List.nil_append, List.cons_append, List.cons.injEq] at h
      exact absurd (by simp [h.1]) h₂
  | cons b x₁ ih =>
    intro x₂ z₁ z₂ h₁ h₂ h
    cases x₂ with
    | nil =>
      simp only [List.nil_append, List.cons_append, List.cons.injEq] at h
      exact absurd (by simp [h.1]) h₁
    | cons c x₂ =>
      simp only [List.cons_append, List.cons.injEq] at h
      obtain ⟨e₁, e₂⟩ := ih (fun hm => h₁ (by simp [hm])) (fun hm => h₂ (by simp [hm])) h.2
      exact ⟨by rw [h.1, e₁], e₂⟩

theorem queryURL_domain_injective {d d' rt rt' : String} (h₁ : '&' ∉ rt.data)
    (h₂ : '&' ∉ rt'.data) (h : queryURL d rt = queryURL d' rt') : d = d' := by
  have hd := congrArg (fun s => s.data.reverse) h
  simp only [queryURL, String.data_append, List.reverse_append] at hd
  have e : "&type=".data.reverse = "=epyt".data ++ ['&'] := by decide
  rw [e] at hd
  simp only [List.append_assoc, List.singleton_append] at hd
  rw [← List.append_assoc, ← List.append_assoc rt'.data.reverse] at hd
  have hn : ∀ r : String, '&' ∉ r.data → '&' ∉ r.data.reverse ++ "=epyt".data := by
    intro r hr hm
    rcases List.mem_append.1 hm with hm | hm
    · exact hr (List.mem_reverse.1 hm)
    · exact absurd hm (by decide)
  obtain ⟨-, e₂⟩ := first_occurrence (hn rt h₁) (hn rt' h₂) hd
  have e₃ := List.append_cancel_right e₂
  exact String.ext (List.reverse_injective e₃)

theorem recordTypes_no_amp : ∀ rt ∈ recordTypes, '&' ∉ rt.data := by decide

theorem failOn_fails (D1 : String) (env : Env) :
    ∀ rt ∈ recordTypes, (failOn D1 env).clientDo (queryURL D1 rt) = none := by
  intro rt hrt
  have : recordTypes.any (fun rt' => queryURL D1 rt == queryURL D1 rt') = true :=
    List.any_eq_true.2 ⟨rt, hrt, by simp⟩
  simp only [failOn, this, if_true]

theorem failOn_agrees (D1 : String) (env : Env) :
    (failOn D1 env).unmarshal = env.unmarshal ∧
    ∀ d, d ≠ D1 → ∀ rt ∈ recordTypes,
      (failOn D1 env).newRequest (queryURL d rt) = env.newRequest (queryURL d rt) ∧
      (failOn D1 env).clientDo (queryURL d rt) = env.clientDo (queryURL d rt) := by
  refine ⟨rfl, ?_⟩
  intro d hd rt hrt
  refine ⟨rfl, ?_⟩
  have : recordTypes.any (fun rt' => queryURL d rt == queryURL D1 rt') = false := by
    rw [List.any_eq_false]
    intro rt' hrt' heq
    exact hd (queryURL_domain_injective (recordTypes_no_amp rt hrt)
      (recordTypes_no_amp rt' hrt') (by simpa using heq))
  simp only [failOn, this, Bool.false_eq_true, if_false]

theorem queryDNS_congr {env₁ env₂ : Env} {d rt : String}
    (hdec : env₁.unmarshal = env₂.unmarshal)
    (hreq : env₁.newRequest (queryURL d rt) = env₂.newRequest (queryURL d rt))
    (hdo : env₁.clientDo (queryURL d rt) = env₂.clientDo (queryURL d rt)) :
    queryDNS env₁ d rt = queryDNS env₂ d rt := by
  simp only [queryDNS, hdec, hreq, hdo]

theorem checkDomainLoop_congr {env₁ env₂ : Env} {d : String} (rts : List String)
    (h : ∀ rt ∈ rts, queryDNS env₁ d rt = queryDNS env₂ d rt) :
    checkDomainLoop env₁ d rts = checkDomainLoop env₂ d rts := by
  induction rts with
  | nil => rfl
  | cons rt rest ih =>
    simp only [checkDomainLoop, h rt (by simp),
      ih (fun r hr => h r (by simp [hr]))]

theorem count_output {env : Env} {domains : List String} {s : State}
    (hinv : Inv env domains s) (he : s.mainPc = .emit) (d : String) :
    s.output.count d = if checkDomain env d = true then domains.count d else 0 := by
  rw [(output_of_emit hinv he).count_eq]
  by_cases hc : checkDomain env d = true
  · rw [if_pos hc]
    exact List.count_filter (by simpa using hc)
  · rw [if_neg hc, List.count_eq_zero]
    intro hm
    exact hc (by simpa using (List.mem_filter.1 hm).2)

/-- C5 (no loss, no spurious report): every run of `main` can be continued until
`main` has left the collecting loop, no run has more than `5 * len(domains) + 4`
steps, and whatever the interleaving, the output list collected is then a
permutation of the input domains whose `checkDomain` verdict is true, so its length is
the number of input entries with a true verdict. -/
theorem main_no_loss_no_spurious (env : Env) (domains : List String) (sched : List Tid)
    (s : State) (hrun : run env domains sched = some s) :
    (∃ sched' s', run env domains (sched ++ sched') = some s' ∧ s'.mainPc = .emit) ∧
    sched.length ≤ 5 * domains.length + 4 ∧
    (s.mainPc = .emit →
      s.output.Perm (domains.filter (fun d => checkDomain env d)) ∧
      s.output.length = domains.countP (fun d => checkDomain env d)) := by
  have hinv := inv_run hrun
  refine ⟨?_, ?_, ?_⟩
  · obtain ⟨sched', s', hr, he⟩ := completes_from s.measure s hinv (Nat.le_refl _)
    refine ⟨sched', s', ?_, he⟩
    unfold run at hrun ⊢
    rw [runFrom_append, hrun]
    exact hr
  · have := length_le_measure sched (inv_init env domains) hrun
    simp only [initState, State.measure, List.map_nil, List.sum_nil, List.length_nil] at this
    omega
  · intro he
    have hperm := output_of_emit hinv he
    exact ⟨hperm, by rw [hperm.length_eq, List.countP_eq_length_filter]⟩

/-- Witness for C5: both domains resolve, the second goroutine sends first, and the
output is the two domains in the order of arrival. -/
theorem main_no_loss_no_spurious_witness :
    run openEnv ["a.example", "b.example"] bothFoundSchedule =
      some (finalState "a.example" "b.example" ["b.example", "a.example"]) ∧
    (["b.example", "a.example"] : List String).Perm
      (["a.example", "b.example"].filter (fun d => checkDomain openEnv d)) ∧
    (["b.example", "a.example"] : List String).length =
      ["a.example", "b.example"].countP (fun d => checkDomain openEnv d) :=
  ⟨by decide,
    (main_no_loss_no_spurious openEnv ["a.example", "b.example"] bothFoundSchedule
      (finalState "a.example" "b.example" ["b.example", "a.example"])
      (by decide)).2.2 rfl⟩

/-- C6 as stated fails: the file holds the line `exists.example` twice, both
goroutines find a record, and the collected output holds the domain twice. -/
theorem main_output_has_duplicate :
    readDomainsFromFile
      (singleFile "domains.txt" "exists.example\nexists.example\n") "domains.txt" =
      .ok ["exists.example", "exists.example"] ∧
    run stubEnv ["exists.example", "exists.example"] bothFoundSchedule =
      some (finalState "exists.example" "exists.example"
        ["exists.example", "exists.example"]) ∧
    ¬ (finalState "exists.example" "exists.example"
        ["exists.example", "exists.example"]).output.Nodup := by
  decide

/-- C6 as amended: once `main` has left the collecting loop, the output has as many
entries as there are input entries with at least one true probe, every domain with a
true probe occurs in it as often as in the input and every other domain not at all; so
the output has no duplicate when the input has none. -/
theorem main_output_multiplicity (env : Env) (domains : List String) (sched : List Tid)
    (s : State) (hrun : run env domains sched = some s) (hemit : s.mainPc = .emit) :
    s.output.length =
      domains.countP (fun d => recordTypes.any (fun rt => queryDNS env d rt != "")) ∧
    (∀ d, s.output.count d =
      if recordTypes.any (fun rt => queryDNS env d rt != "") = true then domains.count d
      else 0) ∧
    (domains.Nodup → s.output.Nodup) := by
  have hinv := inv_run hrun
  have hperm := output_of_emit hinv hemit
  have hfun : (fun d => recordTypes.any (fun rt => queryDNS env d rt != "")) =
      fun d => checkDomain env d := by
    funext d
    exact (checkDomain_eq_any env d).symm
  refine ⟨?_, ?_, ?_⟩
  · rw [hfun, hperm.length_eq, List.countP_eq_length_filter]
  · intro d
    rw [← checkDomain_eq_any]
    exact count_output hinv hemit d
  · intro hnd
    exact hperm.nodup_iff.2 (hnd.filter _)

/-- Witness for C6 as amended: two different domains, both found. -/
theorem main_output_multiplicity_witness :
    (["b.example", "a.example"] : List String).length =
      ["a.example", "b.example"].countP
        (fun d => recordTypes.any (fun rt => queryDNS openEnv d rt != "")) ∧
    (["b.example", "a.example"] : List String).Nodup :=
  ⟨(main_output_multiplicity openEnv ["a.example", "b.example"] bothFoundSchedule
      (finalState "a.example" "b.example" ["b.example", "a.example"])
      (by decide) rfl).1,
    (main_output_multiplicity openEnv ["a.example", "b.example"] bothFoundSchedule
      (finalState "a.example" "b.example" ["b.example", "a.example"])
      (by decide) rfl).2.2 (by decide)⟩

/-- C9 (isolation under failure): take two resolvers that agree on every probe of
every domain other than `D1`, and a completed run of `main` under each. If every probe
of `D1` fails at the network layer under the first, the verdict of `D1` is false and
`D1` is not in the output; and every other domain has the same verdict and the same
number of occurrences in the output in both runs. -/
theorem isolation_under_failure (env₁ env₂ : Env) (domains : List String) (D1 : String)
    (sched₁ sched₂ : List Tid) (s₁ s₂ : State)
    (hdec : env₁.unmarshal = env₂.unmarshal)
    (hsame : ∀ d, d ≠ D1 → ∀ rt ∈ recordTypes,
      env₁.newRequest (queryURL d rt) = env₂.newRequest (queryURL d rt) ∧
      env₁.clientDo (queryURL d rt) = env₂.clientDo (queryURL d rt))
    (hrun₁ : run env₁ domains sched₁ = some s₁) (hemit₁ : s₁.mainPc = .emit)
    (hrun₂ : run env₂ domains sched₂ = some s₂) (hemit₂ : s₂.mainPc = .emit) :
    ((∀ rt ∈ recordTypes, env₁.clientDo (queryURL D1 rt) = none) →
      checkDomain env₁ D1 = false ∧ D1 ∉ s₁.output) ∧
    (∀ d, d ≠ D1 →
      checkDomain env₁ d = checkDomain env₂ d ∧
      (d ∈ s₁.output ↔ d ∈ s₂.output) ∧
      s₁.output.count d = s₂.output.count d) := by
  have hinv₁ := inv_run hrun₁
  have hinv₂ := inv_run hrun₂
  constructor
  · intro hfail
    have hv : checkDomain env₁ D1 = false := by
      rw [checkDomain, checkDomainLoop_eq_false_iff]
      intro rt hrt
      exact queryDNS_of_fails env₁ D1 rt (Or.inr (Or.inl (hfail rt hrt)))
    refine ⟨hv, ?_⟩
    rw [← List.count_eq_zero, count_output hinv₁ hemit₁, hv]
    simp
  · intro d hd
    have hv : checkDomain env₁ d = checkDomain env₂ d :=
      checkDomainLoop_congr recordTypes (fun rt hrt =>
        queryDNS_congr hdec (hsame d hd rt hrt).1 (hsame d hd rt hrt).2)
    have hc : s₁.output.count d = s₂.output.count d := by
      rw [count_output hinv₁ hemit₁, count_output hinv₂ hemit₂, hv]
    refine ⟨hv, ?_, hc⟩
    rw [← List.count_pos_iff, ← List.count_pos_iff, hc]

/-- Witness for C9: every query has a record, except that under the first resolver
each probe of `b.example` fails at the network layer. -/
theorem isolation_under_failure_witness :
    (checkDomain (failOn "b.example" openEnv) "b.example" = false ∧
      "b.example" ∉ (finalState "a.example" "b.example" ["a.example"]).output) ∧
    (checkDomain (failOn "b.example" openEnv) "a.example" = checkDomain openEnv "a.example" ∧
      ("a.example" ∈ (finalState "a.example" "b.example" ["a.example"]).output ↔
        "a.example" ∈
          (finalState "a.example" "b.example" ["b.example", "a.example"]).output)) :=
  ⟨(isolation_under_failure (failOn "b.example" openEnv) openEnv
      ["a.example", "b.example"] "b.example" firstFoundSchedule bothFoundSchedule
      (finalState "a.example" "b.example" ["a.example"])
      (finalState "a.example" "b.example" ["b.example", "a.example"])
      (failOn_agrees "b.example" openEnv).1 (failOn_agrees "b.example" openEnv).2
      (by decide) rfl (by decide) rfl).1 (failOn_fails "b.example" openEnv),
    ⟨((isolation_under_failure (failOn "b.example" openEnv) openEnv
      ["a.example", "b.example"] "b.example" firstFoundSchedule bothFoundSchedule
      (finalState "a.example" "b.example" ["a.example"])
      (finalState "a.example" "b.example" ["b.example", "a.example"])
      (failOn_agrees "b.example" openEnv).1 (failOn_agrees "b.example" openEnv).2
      (by decide) rfl (by decide) rfl).2 "a.example" (by decide)).1,
     ((isolation_under_failure (failOn "b.example" openEnv) openEnv
      ["a.example", "b.example"] "b.example" firstFoundSchedule bothFoundSchedule
      (finalState "a.example" "b.example" ["a.example"])
      (finalState "a.example" "b.example" ["b.example", "a.example"])
      (failOn_agrees "b.example" openEnv).1 (failOn_agrees "b.example" openEnv).2
      (by decide) rfl (by decide) rfl).2 "a.example" (by decide)).2.1⟩⟩

/-- C10 (completion barrier): in every state of every run of `main`, no goroutine
has panicked (in particular none has sent on a closed channel); if the closing
goroutine is past `wg.Wait()`, and all the more if the channel is closed, then every
per-domain goroutine has been started and has finished; the channel is closed only
by the closing goroutine after `wg.Wait()`; and `main` is past the collecting loop only
when the channel is closed and drained. -/
theorem completion_barrier (env : Env) (domains : List String) (sched : List Tid)
    (s : State) (hrun : run env domains sched = some s) :
    s.panic = none ∧
    (s.closer = some .close ∨ s.closer = some .exited →
      s.wg = 0 ∧ s.workers.map (fun w => w.domain) = domains ∧
      ∀ w ∈ s.workers, w.pc = .exited) ∧
    (s.results.closed = true ↔ s.closer = some .exited) ∧
    (s.results.closed = true → ∀ w ∈ s.workers, w.pc ≠ .send) ∧
    (s.mainPc = .emit → s.results.closed = true ∧ s.results.buf = []) := by
  have hinv := inv_run hrun
  refine ⟨hinv.noPanic, ?_, hinv.closedIff, ?_, hinv.drained⟩
  · intro hc
    have hwg := hinv.waited hc
    have hcnt := hinv.counter
    rw [hwg] at hcnt
    have hall := List.countP_eq_zero.1 hcnt.symm
    have hrest : s.mainPc.rest = [] := by
      cases hm : s.mainPc with
      | spawn rest =>
        have := hinv.closerStarted.2 ⟨rest, hm⟩
        rw [this] at hc
        simp at hc
      | collect => rfl
      | emit => rfl
    have hsp := hinv.spawned
    rw [hrest, List.append_nil] at hsp
    refine ⟨hwg, hsp, ?_⟩
    intro w hw
    have := hall w hw
    cases hpc : w.pc <;> simp_all [WorkerPc.live]
  · intro hcl w hw hs
    have := (all_exited_of_closed hinv hcl).2 w hw
    rw [this] at hs
    cases hs

/-- Witness for C10: a completed run on two domains. -/
theorem completion_barrier_witness :
    run openEnv ["a.example", "b.example"] bothFoundSchedule =
      some (finalState "a.example" "b.example" ["b.example", "a.example"]) ∧
    (finalState "a.example" "b.example" ["b.example", "a.example"]).panic = none ∧
    ((finalState "a.example" "b.example" ["b.example", "a.example"]).results.closed = true ∧
      (finalState "a.example" "b.example" ["b.example", "a.example"]).results.buf = []) :=
  ⟨by decide,
    (completion_barrier openEnv ["a.example", "b.example"] bothFoundSchedule
      (finalState "a.example" "b.example" ["b.example", "a.example"]) (by decide)).1,
    (completion_barrier openEnv ["a.example", "b.example"] bothFoundSchedule
      (finalState "a.example" "b.example" ["b.example", "a.example"])
      (by decide)).2.2.2.2 rfl⟩

/-! ### Scanning and trimming -/

theorem isSpace_cr : isSpace '\r' = true := by decide

theorem TrimSpace_nil : TrimSpace [] = [] := rfl

theorem trim_concat_space (p : Char → Bool) (c : Char) (hc : p c = true) (l : List Char) :
    ((l ++ [c]).dropWhile p).rdropWhile p = (l.dropWhile p).rdropWhile p := by
  induction l with
  | nil => simp [List.dropWhile, hc]
  | cons x xs ih =>
    by_cases hx : p x = true
    · simpa [List.dropWhile, hx] using ih
    · have e1 : ((x :: xs) ++ [c]).dropWhile p = (x :: xs) ++ [c] := by
        simp [List.dropWhile, hx]
      have e2 : (x :: xs).dropWhile p = x :: xs := by simp [List.dropWhile, hx]
      rw [e1, e2, List.rdropWhile_concat_pos _ _ _ hc]

theorem TrimSpace_dropCR (l : List Char) : TrimSpace (dropCR l) = TrimSpace l := by
  unfold dropCR
  split
  · rename_i h
    obtain ⟨l', rfl⟩ : ∃ l', l = l' ++ ['\r'] := by
      rcases List.eq_nil_or_concat l with rfl | ⟨l', c, rfl⟩
      · simp at h
      · simp at h
        exact ⟨l', by simp [h]⟩
    simp only [List.dropLast_concat]
    exact (trim_concat_space isSpace '\r' isSpace_cr l').symm
  · rfl

/-- The lines of `cur ++ data` when `cur` holds no line feed. -/
theorem lines_nil (cur : List Char) :
    (([] : List Char).splitOn '\n').modifyHead (cur ++ ·) = [cur] := by
  simp [List.splitOn, List.splitOnP_nil]

theorem lines_newline (cur data : List Char) :
    (('\n' :: data).splitOn '\n').modifyHead (cur ++ ·) = cur :: data.splitOn '\n' := by
  simp [List.splitOn, List.splitOnP_cons]

theorem lines_other (cur data : List Char) (c : Char) (hc : c ≠ '\n') :
    ((c :: data).splitOn '\n').modifyHead (cur ++ ·) =
      (data.splitOn '\n').modifyHead ((cur ++ [c]) ++ ·) := by
  simp only [List.splitOn, List.splitOnP_cons]
  have : (c == '\n') = false := by simpa using hc
  simp only [this, Bool.false_eq_true, if_false, List.modifyHead_modifyHead]
  congr 1
  funext l
  simp

theorem modifyHead_nil_append (L : List (List Char)) :
    L.modifyHead (([] : List Char) ++ ·) = L := by
  cases L <;> simp

/-- The domains collected from a list of lines, in the words of the specification. -/
theorem appendDomains_eq (tokens : List (List Char)) :
    appendDomains tokens =
      ((tokens.map TrimSpace).filter (fun line => line ≠ [])).map String.mk := by
  induction tokens with
  | nil => rfl
  | cons t ts ih =>
    by_cases h : TrimSpace t = []
    · simp [appendDomains, h, ih]
    · simp [appendDomains, h, ih]

theorem scanLines_ok (data : List Char) :
    ∀ cur : List Char,
      (∀ l ∈ (data.splitOn '\n').modifyHead (cur ++ ·), byteLen l < maxScanTokenSize) →
      ∃ tokens, scanLines cur data = .ok tokens ∧
        appendDomains tokens =
          appendDomains ((data.splitOn '\n').modifyHead (cur ++ ·)) := by
  induction data with
  | nil =>
    intro cur h
    rw [lines_nil] at h ⊢
    have hlen := h cur (by simp)
    by_cases hc : cur = []
    · subst hc
      exact ⟨[], by simp [scanLines], by simp [appendDomains, TrimSpace_nil]⟩
    · refine ⟨[dropCR cur], ?_, ?_⟩
      · simp [scanLines, hc, Nat.not_le.2 hlen]
      · simp [appendDomains, TrimSpace_dropCR]
  | cons c data ih =>
    intro cur h
    by_cases hc : c = '\n'
    · subst hc
      rw [lines_newline] at h ⊢
      have hlen := h cur (by simp)
      obtain ⟨tokens, ht, ha⟩ := ih [] (by
        rw [modifyHead_nil_append]
        intro l hl
        exact h l (by simp [hl]))
      rw [modifyHead_nil_append] at ha
      refine ⟨dropCR cur :: tokens, ?_, ?_⟩
      · simp [scanLines, Nat.not_le.2 hlen, ht]
      · simp [appendDomains, TrimSpace_dropCR, ha]
    · rw [lines_other _ _ _ hc] at h ⊢
      obtain ⟨tokens, ht, ha⟩ := ih (cur ++ [c]) h
      exact ⟨tokens, by simp [scanLines, hc, ht], ha⟩

theorem scanLines_tooLong (data : List Char) :
    ∀ cur : List Char,
      (∃ l ∈ (data.splitOn '\n').modifyHead (cur ++ ·), maxScanTokenSize ≤ byteLen l) →
      scanLines cur data = .error .tokenTooLong := by
  induction data with
  | nil =>
    intro cur h
    rw [lines_nil] at h
    obtain ⟨l, hl, hlen⟩ := h
    simp at hl
    subst hl
    have hc : l ≠ [] := by
      rintro rfl
      simp [byteLen, maxScanTokenSize] at hlen
    simp [scanLines, hc, hlen]
  | cons c data ih =>
    intro cur h
    by_cases hc : c = '\n'
    · subst hc
      rw [lines_newline] at h
      obtain ⟨l, hl, hlen⟩ := h
      by_cases hcur : maxScanTokenSize ≤ byteLen cur
      · simp [scanLines, hcur]
      · have hl' : l ∈ data.splitOn '\n' := by
          rcases List.mem_cons.1 hl with rfl | hl
          · exact absurd hlen hcur
          · exact hl
        have := ih [] ⟨l, by rwa [modifyHead_nil_append], hlen⟩
        simp [scanLines, hcur, this]
    · rw [lines_other _ _ _ hc] at h
      simpa [scanLines, hc] using ih (cur ++ [c]) h

theorem readDomainsFromFile_ok {fs : FileSystem} {filePath content : String}
    (hopen : fs.readFile filePath = some content)
    (hlim : ∀ l ∈ textLines content, byteLen l < maxScanTokenSize) :
    readDomainsFromFile fs filePath = .ok (specDomains content) := by
  obtain ⟨tokens, ht, ha⟩ := scanLines_ok content.data [] (by
    rw [modifyHead_nil_append]; exact hlim)
  rw [modifyHead_nil_append, appendDomains_eq (content.data.splitOn '\n')] at ha
  simp only [readDomainsFromFile, hopen, ht, ha, specDomains, textLines]

theorem readDomainsFromFile_tooLong {fs : FileSystem} {filePath content : String}
    (hopen : fs.readFile filePath = some content)
    (hlong : ∃ l ∈ textLines content, maxScanTokenSize ≤ byteLen l) :
    readDomainsFromFile fs filePath = .err .tokenTooLong := by
  have := scanLines_tooLong content.data [] (by
    rw [modifyHead_nil_append]; exact hlong)
  simp only [readDomainsFromFile, hopen, this]

theorem not_mem_of_mem_splitOn (data : List Char) :
    ∀ l ∈ data.splitOn '\n', '\n' ∉ l := by
  induction data with
  | nil => simp [List.splitOn, List.splitOnP_nil]
  | cons c data ih =>
    simp only [List.splitOn, List.splitOnP_cons] at ih ⊢
    by_cases hc : c = '\n'
    · subst hc
      intro l hl
      simp only [beq_self_eq_true, if_true, List.mem_cons] at hl
      rcases hl with rfl | hl
      · simp
      · exact ih l hl
    · have hb : (c == '\n') = false := by simpa using hc
      simp only [hb, Bool.false_eq_true, if_false]
      cases hs : List.splitOnP (fun x => x == '\n') data with
      | nil => simp
      | cons first others =>
        rw [hs] at ih
        intro l hl
        simp only [List.modifyHead_cons, List.mem_cons] at hl
        rcases hl with rfl | hl
        · have := ih first (by simp)
          simp only [List.mem_cons, not_or]
          exact ⟨fun h => hc h.symm, this⟩
        · exact ih l (by simp [hl])

theorem TrimSpace_sublist (l : List Char) : (TrimSpace l).Sublist l :=
  ( List.rdropWhile_prefix isSpace _).sublist.trans (List.dropWhile_sublist isSpace)

theorem TrimSpace_head (l : List Char) (c : Char) (h : (TrimSpace l).head? = some c) :
    isSpace c = false := by
  unfold TrimSpace at h
  have hpre : (l.dropWhile isSpace).rdropWhile isSpace <+: l.dropWhile isSpace :=
    List.rdropWhile_prefix isSpace _
  obtain ⟨t, ht⟩ := hpre
  have hd := List.head?_dropWhile_not isSpace l
  cases hr : (l.dropWhile isSpace).rdropWhile isSpace with
  | nil => rw [hr] at h; simp at h
  | cons x xs =>
    rw [hr] at h ht
    simp only [List.head?_cons, Option.some.injEq] at h
    subst h
    rw [← ht] at hd
    simpa using hd

theorem TrimSpace_getLast (l : List Char) (c : Char) (h : (TrimSpace l).getLast? = some c) :
    isSpace c = false := by
  unfold TrimSpace at h
  have hne : (l.dropWhile isSpace).rdropWhile isSpace ≠ [] := by
    intro h0; rw [h0] at h; simp at h
  have := List.rdropWhile_last_not isSpace (l.dropWhile isSpace) hne
  rw [List.getLast?_eq_getLast _ hne] at h
  simp only [Option.some.injEq] at h
  rw [h] at this
  simpa using this

theorem TrimSpace_eq_self (l : List Char)
    (hhead : ∀ c, l.head? = some c → isSpace c = false)
    (hlast : ∀ c, l.getLast? = some c → isSpace c = false) : TrimSpace l = l := by
  unfold TrimSpace
  have h1 : l.dropWhile isSpace = l := by
    cases l with
    | nil => rfl
    | cons x xs =>
      have := hhead x rfl
      simp [List.dropWhile, this]
  rw [h1, List.rdropWhile_eq_self_iff]
  intro hl
  have := hlast (l.getLast hl) (List.getLast?_eq_getLast _ hl)
  simp [this]

theorem specDomains_mem {content d : String} (hd : d ∈ specDomains content) :
    d ≠ "" ∧ (∀ c, d.data.head? = some c → isSpace c = false) ∧
      (∀ c, d.data.getLast? = some c → isSpace c = false) ∧ '\n' ∉ d.data := by
  simp only [specDomains, List.mem_map, List.mem_filter, decide_eq_true_eq] at hd
  obtain ⟨t, ⟨⟨l, hl, rfl⟩, hne⟩, rfl⟩ := hd
  refine ⟨?_, TrimSpace_head l, TrimSpace_getLast l, ?_⟩
  · intro h
    apply hne
    have := congrArg String.data h
    simpa using this
  · intro hmem
    exact not_mem_of_mem_splitOn content.data l hl ((TrimSpace_sublist l).subset hmem)

theorem writtenText_data_aux (results : List String) :
    ∀ text : String,
      (results.foldl (fun text result => text ++ (result ++ "\n")) text).data =
        text.data ++ results.flatMap (fun r => r.data ++ ['\n']) := by
  induction results with
  | nil => intro text; simp
  | cons r rs ih =>
    intro text
    simp only [List.foldl_cons, ih, List.flatMap_cons, String.data_append]
    simp

theorem writtenText_data (results : List String) :
    (writtenText results).data = results.flatMap (fun r => r.data ++ ['\n']) := by
  simpa [writtenText] using writtenText_data_aux results ""

theorem textLines_writtenText (results : List String)
    (hnl : ∀ r ∈ results, '\n' ∉ r.data) :
    textLines (writtenText results) = results.map String.data ++ [[]] := by
  unfold textLines
  rw [writtenText_data]
  induction results with
  | nil => simp [List.splitOn, List.splitOnP_nil]
  | cons r rs ih =>
    have hr := hnl r (by simp)
    have := List.splitOnP_first (· == '\n') r.data (by
      intro x hx hp
      simp only [beq_iff_eq] at hp
      subst hp
      exact hr hx) '\n' (by simp) (rs.flatMap (fun r => r.data ++ ['\n']))
    have ih' := ih (fun r' hr' => hnl r' (by simp [hr']))
    simp only [List.splitOn] at ih'
    simp only [List.flatMap_cons, List.append_assoc, List.singleton_append, List.splitOn,
      List.map_cons, List.cons_append, List.nil_append]
    rw [this, ih']

theorem specDomains_writtenText (results : List String)
    (hne : ∀ r ∈ results, r ≠ "")
    (hhead : ∀ r ∈ results, ∀ c, r.data.head? = some c → isSpace c = false)
    (hlast : ∀ r ∈ results, ∀ c, r.data.getLast? = some c → isSpace c = false)
    (hnl : ∀ r ∈ results, '\n' ∉ r.data) :
    specDomains (writtenText results) = results := by
  unfold specDomains
  rw [textLines_writtenText results hnl]
  simp only [List.map_append, List.map_map, List.map_cons, List.map_nil, TrimSpace_nil,
    List.filter_append]
  have h1 : List.map (TrimSpace ∘ String.data) results = List.map String.data results := by
    apply List.map_congr_left
    intro r hr
    exact TrimSpace_eq_self r.data (hhead r hr) (hlast r hr)
  have h2 : List.filter (fun line => decide (line ≠ [])) (List.map String.data results) =
      List.map String.data results := by
    rw [List.filter_eq_self]
    intro l hl
    obtain ⟨r, hr, rfl⟩ := List.mem_map.1 hl
    have := hne r hr
    simp only [ne_eq, decide_eq_true_eq]
    intro h0
    apply this
    cases r
    simp_all
  rw [h1, h2]
  simp [List.map_map, Function.comp_def]

theorem byteLen_replicate (n : Nat) : byteLen (List.replicate n 'a') = n := by
  induction n with
  | zero => rfl
  | succ n ih =>
    have h1 : Char.utf8Size 'a' = 1 := by decide
    simp only [byteLen, List.replicate_succ, List.map_cons, List.sum_cons, h1] at ih ⊢
    omega

/-! ### The claims on the domain source and the result sink -/

/-- C7 (domain source parsing): for a file that can be opened and whose lines are all
shorter than the scanner's limit, `readDomainsFromFile` returns, in input order, exactly
the whitespace-trimmed lines that are non-empty after trimming; every returned domain
is non-empty, neither starts nor ends with white space and holds no line feed. -/
theorem readDomainsFromFile_parses (fs : FileSystem) (filePath content : String)
    (hopen : fs.readFile filePath = some content)
    (hlim : ∀ l ∈ textLines content, byteLen l < maxScanTokenSize) :
    readDomainsFromFile fs filePath = .ok (specDomains content) ∧
    ∀ d ∈ specDomains content,
      d ≠ "" ∧ (∀ c, d.data.head? = some c → isSpace c = false) ∧
      (∀ c, d.data.getLast? = some c → isSpace c = false) ∧ '\n' ∉ d.data :=
  ⟨readDomainsFromFile_ok hopen hlim, fun _ hd => specDomains_mem hd⟩

/-- Witness for C7: the lines `exists.example`, an empty line, a line of two blanks and
`nonexistent.invalid` give exactly the two domains. -/
theorem readDomainsFromFile_parses_witness :
    readDomainsFromFile
      (singleFile "domains.txt" "exists.example\n\n  \nnonexistent.invalid\n")
      "domains.txt" = .ok ["exists.example", "nonexistent.invalid"] ∧
    specDomains "exists.example\n\n  \nnonexistent.invalid\n" =
      ["exists.example", "nonexistent.invalid"] :=
  ⟨(readDomainsFromFile_parses
      (singleFile "domains.txt" "exists.example\n\n  \nnonexistent.invalid\n")
      "domains.txt" "exists.example\n\n  \nnonexistent.invalid\n" rfl (by decide)).1.trans
      (by decide),
    by decide⟩

/-! ### Writing through the buffered writer -/

theorem byteLen_append (a b : List Char) : byteLen (a ++ b) = byteLen a + byteLen b := by
  simp [byteLen]

theorem takeBytes_of_le : ∀ (l : List Char) (n : Nat), byteLen l ≤ n → takeBytes n l = l := by
  intro l
  induction l with
  | nil => intro n _; rfl
  | cons c cs ih =>
    intro n h
    simp only [byteLen, List.map_cons, List.sum_cons] at h
    have hc : c.utf8Size ≤ n := by omega
    simp only [takeBytes, hc, if_true]
    rw [ih (n - c.utf8Size) (by simp only [byteLen]; omega)]

theorem fileAccepts_mono {space : Option Nat} {m n : Nat} (h : m ≤ n)
    (hn : fileAccepts space n = true) : fileAccepts space m = true := by
  cases space with
  | none => rfl
  | some room =>
    simp only [fileAccepts, decide_eq_true_eq] at hn ⊢
    omega

theorem WriteString_text (space : Option Nat) (b : Writer) (s : String) :
    (b.WriteString space s).text = b.text ++ s := by
  unfold Writer.WriteString
  simp only
  split
  · rfl
  · split <;> rfl

theorem WriteString_ok (space : Option Nat) (b : Writer) (s : String) (hb : b.err = none)
    (hfit : fileAccepts space (byteLen (b.text ++ s).data) = true) :
    (b.WriteString space s).err = none := by
  unfold Writer.WriteString
  simp only
  split
  · exact hb
  · rename_i hp
    have hlt : b.onDisk + defaultBufSize *
        ((byteLen (b.text ++ s).data - b.onDisk - 1) / defaultBufSize) ≤
        byteLen (b.text ++ s).data := by
      have := Nat.mul_div_le (byteLen (b.text ++ s).data - b.onDisk - 1) defaultBufSize
      simp only [defaultBufSize] at hp this ⊢
      omega
    rw [if_pos (fileAccepts_mono hlt hfit)]
    exact hb

theorem foldl_text_byteLen (results : List String) :
    ∀ text : String, byteLen text.data ≤
      byteLen (results.foldl (fun text result => text ++ (result ++ "\n")) text).data := by
  induction results with
  | nil => intro text; exact Nat.le_refl _
  | cons r rs ih =>
    intro text
    refine Nat.le_trans ?_ (ih _)
    simp only [String.data_append, byteLen_append]
    omega

theorem writeLoop_text (space : Option Nat) (results : List String) :
    ∀ b : Writer, (writeLoop space results b).err = none →
      (writeLoop space results b).text =
        results.foldl (fun text result => text ++ (result ++ "\n")) b.text := by
  induction results with
  | nil => intro b _; rfl
  | cons r rs ih =>
    intro b h
    simp only [writeLoop] at h ⊢
    cases he : (b.WriteString space (r ++ "\n")).err with
    | some e => simp [he] at h
    | none =>
      simp only [he] at h ⊢
      rw [ih _ h, WriteString_text]
      rfl

theorem writeLoop_ok (space : Option Nat) (results : List String) :
    ∀ b : Writer, b.err = none →
      fileAccepts space
        (byteLen (results.foldl (fun text result => text ++ (result ++ "\n")) b.text).data) =
        true →
      (writeLoop space results b).err = none := by
  induction results with
  | nil => intro b hb _; exact hb
  | cons r rs ih =>
    intro b hb hfit
    simp only [List.foldl_cons] at hfit
    have hw : (b.WriteString space (r ++ "\n")).err = none :=
      WriteString_ok space b _ hb (fileAccepts_mono (foldl_text_byteLen rs _) hfit)
    simp only [writeLoop, hw]
    apply ih _ hw
    rw [WriteString_text]
    exact hfit

theorem Flush_ok_onDisk (space : Option Nat) (b : Writer)
    (h : (b.Flush space).err = none) :
    (b.Flush space).text = b.text ∧ byteLen b.text.data ≤ (b.Flush space).onDisk := by
  unfold Writer.Flush at h ⊢
  cases hb : b.err with
  | some e => simp [hb] at h
  | none =>
    simp only [hb] at h ⊢
    split
    · rename_i h0
      exact ⟨rfl, by omega⟩
    · split
      · exact ⟨rfl, Nat.le_refl _⟩
      · rename_i h1 h2
        simp [h1, h2] at h

/-- When `writeResultsToFile` returns no error, the file could be created and holds
each result followed by a line feed. -/
theorem writeResultsToFile_content {fs : FileSystem} {filePath : String}
    {results : List String} (h : (writeResultsToFile fs filePath results).1 = none) :
    fs.canCreate filePath = true ∧
    (writeResultsToFile fs filePath results).2.readFile filePath =
      some (writtenText results) := by
  unfold writeResultsToFile at h ⊢
  cases hc : fs.canCreate filePath with
  | false => simp [hc] at h
  | true =>
    simp only [hc, Bool.true_eq_false, if_false] at h ⊢
    refine ⟨trivial, ?_⟩
    cases he : (writeLoop (fs.space filePath) results ⟨"", 0, none⟩).err with
    | some e => simp [he] at h
    | none =>
      simp only [he] at h ⊢
      obtain ⟨ht, hd⟩ := Flush_ok_onDisk _ _ h
      have htext := writeLoop_text (fs.space filePath) results ⟨"", 0, none⟩ he
      simp only [FileSystem.withFile, if_true, Writer.fileText, Option.some.injEq]
      rw [ht]
      rw [takeBytes_of_le _ _ hd, htext]
      rfl

/-- When the file can be created and the device takes the whole text,
`writeResultsToFile` returns no error. -/
theorem writeResultsToFile_fits {fs : FileSystem} {filePath : String}
    {results : List String} (hc : fs.canCreate filePath = true)
    (hfit : fileAccepts (fs.space filePath) (byteLen (writtenText results).data) = true) :
    (writeResultsToFile fs filePath results).1 = none := by
  unfold writeResultsToFile
  simp only [hc, Bool.true_eq_false, if_false]
  have he := writeLoop_ok (fs.space filePath) results ⟨"", 0, none⟩ rfl hfit
  have htext := writeLoop_text (fs.space filePath) results ⟨"", 0, none⟩ he
  simp only [he]
  unfold Writer.Flush
  simp only [he]
  split
  · exact he
  · rw [htext]
    have : fileAccepts (fs.space filePath)
        (byteLen (List.foldl (fun text result => text ++ (result ++ "\n"))
          ({ text := "", onDisk := 0, err := none } : Writer).text results).data) = true := hfit
    rw [if_pos this]

theorem WriteString_accepts (space : Option Nat) (b : Writer) (s : String)
    (hb : fileAccepts space b.onDisk = true) (h : (b.WriteString space s).err = none) :
    fileAccepts space (b.WriteString space s).onDisk = true := by
  unfold Writer.WriteString at h ⊢
  simp only at h ⊢
  split
  · exact hb
  · split
    · rename_i h1
      exact h1
    · rename_i h0 h1
      rw [if_neg h0, if_neg h1] at h
      cases h

theorem writeLoop_accepts (space : Option Nat) (results : List String) :
    ∀ b : Writer, fileAccepts space b.onDisk = true →
      (writeLoop space results b).err = none →
      fileAccepts space (writeLoop space results b).onDisk = true := by
  induction results with
  | nil => intro b hb _; exact hb
  | cons r rs ih =>
    intro b hb h
    simp only [writeLoop] at h ⊢
    cases he : (b.WriteString space (r ++ "\n")).err with
    | some e => simp [he] at h
    | none =>
      simp only [he] at h ⊢
      exact ih _ (WriteString_accepts space b _ hb he) h

theorem fileAccepts_zero (space : Option Nat) : fileAccepts space 0 = true := by
  cases space <;> simp [fileAccepts]

/-- The error returns of `writeResultsToFile` are live: it returns `nil` exactly when
the file can be created and the device takes the whole text. -/
theorem writeResultsToFile_eq_none_iff (fs : FileSystem) (filePath : String)
    (results : List String) :
    (writeResultsToFile fs filePath results).1 = none ↔
      fs.canCreate filePath = true ∧
      fileAccepts (fs.space filePath) (byteLen (writtenText results).data) = true := by
  constructor
  · intro h
    refine ⟨(writeResultsToFile_content h).1, ?_⟩
    unfold writeResultsToFile at h
    cases hc : fs.canCreate filePath with
    | false => simp [hc] at h
    | true =>
      simp only [hc, Bool.true_eq_false, if_false] at h
      cases he : (writeLoop (fs.space filePath) results ⟨"", 0, none⟩).err with
      | some e => simp [he] at h
      | none =>
        simp only [he] at h
        have htext := writeLoop_text (fs.space filePath) results ⟨"", 0, none⟩ he
        have hacc := writeLoop_accepts (fs.space filePath) results ⟨"", 0, none⟩
          (fileAccepts_zero _) he
        have htot : byteLen (writeLoop (fs.space filePath) results ⟨"", 0, none⟩).text.data =
            byteLen (writtenText results).data := by rw [htext]; rfl
        unfold Writer.Flush at h
        simp only [he] at h
        split at h
        · rename_i h0
          exact fileAccepts_mono (by omega) hacc
        · split at h
          · rename_i h1
            rw [htot] at h1
            exact h1
          · simp at h
  · rintro ⟨hc, hfit⟩
    exact writeResultsToFile_fits hc hfit

theorem longEntry_data : longEntry.data = 'a' :: List.replicate 65535 'a' := by
  simp only [longEntry, maxScanTokenSize]
  rfl

/-- C8 as stated fails, in two ways.  On a full device the entries `example.com` and
`test.org` meet every condition of the claim, but `writeResultsToFile` returns the
error of its `Flush`, the file stays empty and reading it back gives no entry.  And on
a device without limit an entry of 65536 letters `a` (non-empty, no white space, no
line break) is written followed by one line feed, but reading the file back stops with
`bufio.ErrTooLong` and returns no entries. -/
theorem roundtrip_fails_on_full_disk_and_long_entry :
    ((writeResultsToFile (fullDisk "in.txt" "") "out.txt" ["example.com", "test.org"]).1 =
        some .writeFailed ∧
      (writeResultsToFile (fullDisk "in.txt" "") "out.txt"
        ["example.com", "test.org"]).2.readFile "out.txt" = some "" ∧
      readDomainsFromFile
        (writeResultsToFile (fullDisk "in.txt" "") "out.txt" ["example.com", "test.org"]).2
        "out.txt" = .ok []) ∧
    (longEntry ≠ "" ∧
      (∀ c ∈ longEntry.data, isSpace c = false ∧ c ≠ '\n' ∧ c ≠ '\r') ∧
      (writeResultsToFile (singleFile "in.txt" "") "out.txt" [longEntry]).1 = none ∧
      (writeResultsToFile (singleFile "in.txt" "") "out.txt" [longEntry]).2.readFile
        "out.txt" = some (longEntry ++ "\n") ∧
      readDomainsFromFile
        (writeResultsToFile (singleFile "in.txt" "") "out.txt" [longEntry]).2 "out.txt" =
        .err .tokenTooLong) := by
  have hw : (writeResultsToFile (singleFile "in.txt" "") "out.txt" [longEntry]).1 = none :=
    writeResultsToFile_fits rfl rfl
  have hopen := (writeResultsToFile_content hw).2
  have hread : readDomainsFromFile
      (writeResultsToFile (singleFile "in.txt" "") "out.txt" [longEntry]).2 "out.txt" =
      .err .tokenTooLong := by
    apply readDomainsFromFile_tooLong hopen
    refine ⟨longEntry.data, ?_, ?_⟩
    · rw [textLines_writtenText]
      · simp
      · intro r hr
        simp only [List.mem_singleton] at hr
        subst hr
        intro hm
        have := List.eq_of_mem_replicate hm
        exact absurd this (by decide)
    · simp only [longEntry, byteLen_replicate]
      exact Nat.le_refl _
  refine ⟨by decide, ?_, ?_, hw, hopen, hread⟩
  · intro h
    have := congrArg String.data h
    rw [longEntry_data] at this
    exact List.cons_ne_nil _ _ this
  · intro c hc
    have := List.eq_of_mem_replicate hc
    subst this
    decide

/-- C8 as amended: when `writeResultsToFile` returns no error and the entries are
non-empty, have no leading or trailing white space, hold no line feed and are shorter
than the scanner's limit of 65536 bytes, the file holds each entry followed by one
line feed and `readDomainsFromFile` on it returns the same entries in the same
order. -/
theorem write_read_roundtrip (fs : FileSystem) (filePath : String) (results : List String)
    (hwrite : (writeResultsToFile fs filePath results).1 = none)
    (hne : ∀ r ∈ results, r ≠ "")
    (hhead : ∀ r ∈ results, ∀ c, r.data.head? = some c → isSpace c = false)
    (hlast : ∀ r ∈ results, ∀ c, r.data.getLast? = some c → isSpace c = false)
    (hnl : ∀ r ∈ results, '\n' ∉ r.data)
    (hlen : ∀ r ∈ results, byteLen r.data < maxScanTokenSize) :
    (writeResultsToFile fs filePath results).2.readFile filePath =
      some (writtenText results) ∧
    (writtenText results).data = results.flatMap (fun r => r.data ++ ['\n']) ∧
    readDomainsFromFile (writeResultsToFile fs filePath results).2 filePath =
      .ok results := by
  have hopen := (writeResultsToFile_content hwrite).2
  refine ⟨hopen, writtenText_data results, ?_⟩
  rw [readDomainsFromFile_ok hopen, specDomains_writtenText results hne hhead hlast hnl]
  rw [textLines_writtenText results hnl]
  intro l hl
  rcases List.mem_append.1 hl with hl | hl
  · obtain ⟨r, hr, rfl⟩ := List.mem_map.1 hl
    exact hlen r hr
  · simp only [List.mem_singleton] at hl
    subst hl
    decide

/-- Witness for C8 as amended: the entries `example.com` and `test.org` on a device
without limit. -/
theorem write_read_roundtrip_witness :
    (writeResultsToFile (singleFile "in.txt" "") "out.txt"
      ["example.com", "test.org"]).1 = none ∧
    (writeResultsToFile (singleFile "in.txt" "") "out.txt"
      ["example.com", "test.org"]).2.readFile "out.txt" =
      some "example.com\ntest.org\n" ∧
    readDomainsFromFile
      (writeResultsToFile (singleFile "in.txt" "") "out.txt"
        ["example.com", "test.org"]).2 "out.txt" = .ok ["example.com", "test.org"] :=
  ⟨by decide,
    (write_read_roundtrip (singleFile "in.txt" "") "out.txt" ["example.com", "test.org"]
      (by decide) (by decide) (by decide) (by decide) (by decide) (by decide)).1.trans
      (by decide),
    (write_read_roundtrip (singleFile "in.txt" "") "out.txt" ["example.com", "test.org"]
      (by decide) (by decide) (by decide) (by decide) (by decide) (by decide)).2.2⟩

end Checker
